import Mathlib

/-!
Shallow embedding of `assumption_free.py` (assumption-free anomaly scoring):
the SAX discretizer `_sax`, the distance `_dist`, the combination catalog
`_build_combinations`, substring counting `_count_substr` /
`_count_frequencies`, the bitmap builder `_build_bitmap`, the word extractor
`_get_words`, and the sliding-window driver `AssumptionFreeAA.detect`.

Numbers are modelled by `ℚ`.  Two pieces of external library behaviour are
kept abstract, as parameters threaded through the pipeline:
* `std : List ℚ → ℚ` stands for `numpy.ndarray.std()` (a real square root,
  not rational-valued in general);
* `bps : List ℚ` stands for the breakpoint vector
  `scipy.stats.norm.ppf (linspace ...)` computed in `_sax` (irrational
  values).  The appended `+∞` sentinel is modelled exactly: `bucketIdx`
  returns `bps.length` when no finite breakpoint exceeds the mean, which is
  what indexing the concatenated `breakpoints ++ [inf]` array does.
All theorems below are stated for arbitrary `std` and `bps` (with explicit
hypotheses where a property of the real values is needed).
-/

namespace AF

/-- `np.mean` of a list (`sum / len`); the empty case (`NaN` in numpy) is
only ever used where the result is irrelevant (mapping over an empty list),
and is modelled separately by `listMean?` where it matters. -/
def listMean (l : List ℚ) : ℚ := l.sum / (l.length : ℚ)

/-- `np.mean` of a sub-segment: `none` models the `NaN` produced by numpy on
an empty array, which poisons every later comparison. -/
def listMean? (l : List ℚ) : Option ℚ :=
  if l.isEmpty then none else some (listMean l)

/-- `np.where(breakpoints > m)[0][0]` where the final entry of `breakpoints`
is `+∞`: the index of the first finite breakpoint strictly greater than `m`,
or `bps.length` (the sentinel's index) when there is none.  A real number is
always `< +∞`, so on a real mean this total function agrees with the source's
indexing expression. -/
def bucketIdx (bps : List ℚ) (m : ℚ) : Nat :=
  match bps with
  | [] => 0
  | b :: rest => if m < b then 0 else bucketIdx rest m + 1

/-- `string.ascii_letters`: the 52 ASCII letters, lowercase then uppercase. -/
def ascii_letters : List Char :=
  ['a', 'b', 'c', 'd', 'e', 'f', 'g', 'h', 'i', 'j', 'k', 'l', 'm',
   'n', 'o', 'p', 'q', 'r', 's', 't', 'u', 'v', 'w', 'x', 'y', 'z',
   'A', 'B', 'C', 'D', 'E', 'F', 'G', 'H', 'I', 'J', 'K', 'L', 'M',
   'N', 'O', 'P', 'Q', 'R', 'S', 'T', 'U', 'V', 'W', 'X', 'Y', 'Z']

/-- The failure modes of the Python code: `ValueError` for the two explicit
input validations (`invalidInput`), the `IndexError` raised when a `NaN`
section mean matches no breakpoint, and the `ZeroDivisionError` from `% 0`
or `/ 0` on integers. -/
inductive AFError
  | invalidInput
  | indexError
  | zeroDivision
deriving DecidableEq

/-- The `scaled_data` local of `_sax`: subtract the mean, then divide by the
standard deviation when it is nonzero (numpy's `.std()` is the abstract
parameter `std`; the source multiplies by `1.0 / std`). -/
def sax_scaled (std : List ℚ → ℚ) (data : List ℚ) : List ℚ :=
  let scaled := data.map (fun x => x - listMean data)
  let s := std scaled
  if s ≠ 0 then scaled.map (fun x => x * (1 / s)) else scaled

/-- The `np.array_split(scaled_data, word_size)` local of `_sax`: exactly
`word_size` pieces, each of size `data.length / word_size` once the
divisibility check has passed (each piece may be empty for empty input). -/
def sax_sections (std : List ℚ → ℚ) (data : List ℚ) (word_size : Nat) :
    List (List ℚ) :=
  let k := data.length / word_size
  (List.range word_size).map (fun i => ((sax_scaled std data).drop (i * k)).take k)

/-- Embeds `_sax(data, alphbt_size, word_size)`.  The breakpoint vector
(`norm.ppf` of the `alphbt_size`-quantile grid) is the abstract parameter
`bps` (its length is `alphbt_size - 1`); numpy's `.std()` is the abstract
parameter `std`.  An empty section makes `np.mean` return `NaN`, so the
breakpoint search finds no index and the source raises `IndexError`; this is
the `none` branch of the `mapM`. -/
def sax (std : List ℚ → ℚ) (bps : List ℚ) (data : List ℚ) (word_size : Nat) :
    Except AFError (List Char) :=
  if word_size = 0 then .error .zeroDivision
  else if data.length % word_size ≠ 0 then .error .invalidInput
  else
    match ((sax_sections std data word_size).map listMean?).mapM id with
    | none => .error .indexError
    | some ms => .ok (ms.map (fun m => ascii_letters.getD (bucketIdx bps m) 'a'))

/-- Embeds `_dist`: the sum over all cells of the squared elementwise
difference of two equal-shaped matrices (matrices are lists of rows). -/
def dist (mtrx_a mtrx_b : List (List ℚ)) : ℚ :=
  (List.zipWith (fun ra rb => (List.zipWith (fun x y => (x - y) ^ 2) ra rb).sum)
    mtrx_a mtrx_b).sum

/-- `shape[0]` of a list-of-rows matrix. -/
def shape0 (m : List (List ℚ)) : Nat := m.length

/-- `shape[1]` of a list-of-rows matrix (length of the first row). -/
def shape1 (m : List (List ℚ)) : Nat := (m.headD []).length

/-- Embeds `_build_combinations(alphabet, 2)`: `itertools.permutations`
enumerates ordered index pairs `(i, j)` with `i ≠ j`, the doubled symbols
`[c, c]` are appended, and the surrounding `set(...)` is modelled by
`dedup`.  The pipeline only ever calls this with `combination_len = 2` (the
doubled-symbol branch of the source is hard-coded to length 2). -/
def build_combinations (alphabet : List Char) : List (List Char) :=
  (((List.range alphabet.length).flatMap (fun i =>
      ((List.range alphabet.length).filter (fun j => j != i)).map
        (fun j => [alphabet.getD i 'a', alphabet.getD j 'a'])))
    ++ alphabet.map (fun c => [c, c])).dedup

/-- Embeds `_count_substr`: overlapping occurrences of `needle` in `stack`.
Python's `range(len(stack) - len(needle) + 1)` is empty when the bound is
non-positive, which matches `Nat` truncation in `length + 1 - len needle`. -/
def count_substr (stack needle : List Char) : Nat :=
  ((List.range (stack.length + 1 - needle.length)).filter
    (fun i => (stack.drop i).take needle.length == needle)).length

/-- Embeds `_count_frequencies(words, alphabet, 2)` as an association list
keyed by the catalog: the source initialises every catalog key to `0.0` and
accumulates `_count_substr` over the words; the per-key totals are
identical. -/
def count_frequencies (words : List (List Char)) (alphabet : List Char) :
    List (List Char × ℚ) :=
  (build_combinations alphabet).map (fun c =>
    (c, words.foldl (fun acc w => acc + (count_substr w c : ℚ)) 0))

/-- Lexicographic comparison of words, i.e. Python's `<=` on strings over
ASCII letters (used by `sorted(freqs.keys())`). -/
def lexLe : List Char → List Char → Bool
  | [], _ => true
  | _ :: _, [] => false
  | a :: as, b :: bs => if a < b then true else if b < a then false else lexLe as bs

/-- Insert into a `lexLe`-sorted list, keeping it sorted. -/
def insertSorted (x : List Char) : List (List Char) → List (List Char)
  | [] => [x]
  | y :: ys => if lexLe x y then x :: y :: ys else y :: insertSorted x ys

/-- `sorted(keys)`: a sorting of the key list by `lexLe` (insertion sort; on
the duplicate-free key lists of this pipeline the sorted permutation is
unique, so the choice of algorithm is immaterial). -/
def sortKeys : List (List Char) → List (List Char)
  | [] => []
  | x :: xs => insertSorted x (sortKeys xs)

/-- Integer square root (the largest `k` with `k * k ≤ m`), written
structurally so that it evaluates by reduction; `isqrt_eq_sqrt` below
identifies it with `Nat.sqrt`.  It models the source's floating
`sqrt(len(freqs))` / `int(...)` integrality test. -/
def isqrt (m : Nat) : Nat :=
  match (List.range (m + 1)).find? (fun k => decide (m < (k + 1) * (k + 1))) with
  | some k => k
  | none => m

/-- One cell value of `_build_bitmap`'s loop body: `freqs[key] / norm_factor`
when the factor is nonzero, the raw count otherwise. -/
def scaleVal (freqs : List (List Char × ℚ)) (nf : ℚ) (key : List Char) : ℚ :=
  let v := (freqs.lookup key).getD 0
  if nf ≠ 0 then v / nf else v

/-- The placement loop of `_build_bitmap`: walks the ordered keys keeping the
cursor `(i, j)` exactly as the source does (`j = j % n` at the top of the
body, `i += 1` when `j` reaches `n`). -/
def placeKeys (freqs : List (List Char × ℚ)) (nf : ℚ) (n : Nat) :
    List (List Char) → Nat → Nat → List (List ℚ) → List (List ℚ)
  | [], _, _, mat => mat
  | key :: rest, i, j, mat =>
    let j1 := j % n
    let mat1 := mat.set i ((mat.getD i []).set j1 (scaleVal freqs nf key))
    if j1 + 1 = n then placeKeys freqs nf n rest (i + 1) (j1 + 1) mat1
    else placeKeys freqs nf n rest i (j1 + 1) mat1

/-- Embeds `_build_bitmap(freqs, norm_factor)`: the perfect-square test
(`sqrt(len) != int(sqrt(len))` in floating point, `Nat.sqrt` here), then the
row-major placement of the values in sorted-key order into an `n × n` zero
matrix. -/
def build_bitmap (freqs : List (List Char × ℚ)) (nf : ℚ) :
    Except AFError (List (List ℚ)) :=
  let matrix_size := isqrt freqs.length
  if matrix_size * matrix_size ≠ freqs.length then .error .invalidInput
  else .ok (placeKeys freqs nf matrix_size
      (sortKeys (freqs.map Prod.fst)) 0 0
      (List.replicate matrix_size (List.replicate matrix_size 0)))

/-- Embeds `_get_words(window, feature_size, word_size)`: the window is cut
into `floor(len / feature_size)` consecutive slices of length `feature_size`
(a shorter trailing remainder is dropped) and each slice is discretized;
a raised error propagates out of the loop, like a Python exception. -/
def get_words (std : List ℚ → ℚ) (bps : List ℚ) (window : List ℚ)
    (feature_size word_size : Nat) : Except AFError (List (List Char)) :=
  if feature_size = 0 then .error .zeroDivision
  else
    ((List.range (window.length / feature_size)).map
      (fun i => (window.drop (i * feature_size)).take feature_size)).mapM
      (fun s => sax std bps s word_size)

/-- The constructor parameters of `AssumptionFreeAA`. -/
structure Config where
  word_size : Nat
  window_factor : Nat
  lead_window_factor : Nat
  lag_window_factor : Nat
deriving DecidableEq

/-- `self._window_size = window_factor * word_size`. -/
def Config.window_size (c : Config) : Nat := c.window_factor * c.word_size

/-- `lead_window_size = lead_window_factor * window_size` (the lead deque's
`maxlen`). -/
def Config.lead_maxlen (c : Config) : Nat :=
  c.lead_window_factor * c.window_size

/-- `lag_window_size = lag_window_factor * window_size` (the lag deque's
`maxlen`). -/
def Config.lag_maxlen (c : Config) : Nat :=
  c.lag_window_factor * c.window_size

/-- `self.universe_size = lead_window_size + lag_window_size`. -/
def Config.universe_size (c : Config) : Nat := c.lead_maxlen + c.lag_maxlen

/-- `self._alphabet = 'abcd'`. -/
def af_alphabet : List Char := ['a', 'b', 'c', 'd']

/-- The `Analysis` namedtuple `(score, bitmp1, bitmp2)`. -/
structure Analysis where
  score : ℚ
  bitmp1 : List (List ℚ)
  bitmp2 : List (List ℚ)
deriving DecidableEq, Inhabited

/-- `max(lead_freqs.values() + lag_freqs.values())` under Python 2, where
`dict.values()` returns lists and `+` concatenates them: the maximum over
the concatenation of the two tables' value lists (`getD 0` is never used in
the pipeline, whose tables always carry the 16 catalog keys). -/
def norm_factor (lead_freqs lag_freqs : List (List Char × ℚ)) : ℚ :=
  ((lead_freqs.map Prod.snd ++ lag_freqs.map Prod.snd).max?).getD 0

/-- Follows the spec's words, for comparison with `norm_factor`: "the maximum
value across the union of both frequency tables" — the greatest element of
the set union of the two tables' value sets (`0` for empty tables, which the
pipeline never produces). -/
def spec_norm_factor (lead_freqs lag_freqs : List (List Char × ℚ)) : ℚ :=
  (((lead_freqs.map Prod.snd).toFinset ∪ (lag_freqs.map Prod.snd).toFinset).max).unbot' 0

/-- The two deques `(lead_window, lag_window)` of a detector instance. -/
structure DState where
  lead : List ℚ
  lag : List ℚ
deriving DecidableEq

/-- `deque.append` on a deque with `maxlen`: appends on the right, dropping
from the left on overflow. -/
def dequeAppend (maxlen : Nat) (q : List ℚ) (x : ℚ) : List ℚ :=
  let q1 := q ++ [x]
  if maxlen < q1.length then q1.drop (q1.length - maxlen) else q1

/-- The per-window part of `detect`'s scoring body:
`self.count_frequencies(words=self.get_*_words())` — the window's words and
their frequency table over the fixed alphabet `'abcd'`. -/
def windowTable (std : List ℚ → ℚ) (bps : List ℚ) (cfg : Config)
    (w : List ℚ) : List (List Char × ℚ) :=
  count_frequencies
    ((get_words std bps w cfg.window_size cfg.word_size).toOption.getD [])
    af_alphabet

/-- The scoring body of `detect` once both windows are full: extract the
words of each window, count frequencies, compute the common normalisation
factor, build both bitmaps and the shape-normalised score.  The `Except`
results are unwrapped with `getD`; lemmas below show the defaults are dead
code in every reachable call. -/
def scoreWindows (std : List ℚ → ℚ) (bps : List ℚ) (cfg : Config)
    (lead lag : List ℚ) : Analysis :=
  let lead_freqs := windowTable std bps cfg lead
  let lag_freqs := windowTable std bps cfg lag
  let nf := norm_factor lead_freqs lag_freqs
  let lead_bitmap := (build_bitmap lead_freqs nf).toOption.getD []
  let lag_bitmap := (build_bitmap lag_freqs nf).toOption.getD []
  ⟨dist lead_bitmap lag_bitmap / ((shape0 lead_bitmap * shape1 lead_bitmap : Nat) : ℚ),
   lead_bitmap, lag_bitmap⟩

/-- One iteration of `detect`'s loop: transfer the lead's oldest element to
the lag when the lead is at capacity (the `[]` branch of the match is
unreachable for a positive capacity), append the new datapoint, and score
when both windows are exactly at capacity. -/
def detectStep (std : List ℚ → ℚ) (bps : List ℚ) (cfg : Config)
    (s : DState) (x : ℚ) : DState × Option Analysis :=
  let s1 : DState :=
    if s.lead.length = cfg.lead_maxlen then
      match s.lead with
      | [] => ⟨[], s.lag⟩
      | h :: t => ⟨t, dequeAppend cfg.lag_maxlen s.lag h⟩
    else s
  let lead2 := dequeAppend cfg.lead_maxlen s1.lead x
  if lead2.length = cfg.lead_maxlen ∧ s1.lag.length = cfg.lag_maxlen then
    (⟨lead2, s1.lag⟩, some (scoreWindows std bps cfg lead2 s1.lag))
  else (⟨lead2, s1.lag⟩, none)

/-- `detect` from an arbitrary window state: folds `detectStep` over the
datapoints, collecting the emitted `Analysis` records in order. -/
def detectFrom (std : List ℚ → ℚ) (bps : List ℚ) (cfg : Config)
    (s : DState) : List ℚ → DState × List Analysis
  | [] => (s, [])
  | x :: rest =>
    let p := detectStep std bps cfg s x
    let q := detectFrom std bps cfg p.1 rest
    (q.1, (match p.2 with | some a => [a] | none => []) ++ q.2)

/-- The state of a freshly constructed detector: both deques empty. -/
def initState : DState := ⟨[], []⟩

/-- `AssumptionFreeAA(cfg).detect(datapoints)` on a fresh instance. -/
def detect (std : List ℚ → ℚ) (bps : List ℚ) (cfg : Config)
    (xs : List ℚ) : DState × List Analysis :=
  detectFrom std bps cfg initState xs

/-- Stand-in for numpy `.std()` in concrete witnesses: the constant-zero
function, which agrees with the true standard deviation on every segment a
constant input produces (all deviations are zero there). -/
def stdZ : List ℚ → ℚ := fun _ => 0

/-- Stand-in breakpoint vector for the default alphabet size 4 in concrete
witnesses: three ascending finite values (the true `norm.ppf` quantiles are
the irrationals ≈ -0.6745, 0, 0.6745; no property proved here depends on the
exact values). -/
def bpsStd : List ℚ := [-1, 0, 1]

/-! ### Generic helper lemmas -/

theorem find?_range_eq_some {p : Nat → Bool} {n k : Nat} (hk : k < n)
    (hp : p k = true) (hmin : ∀ j, j < k → p j = false) :
    (List.range n).find? p = some k := by
  rw [List.find?_eq_some]
  refine ⟨hp, List.range' 0 k, List.range' (k + 1) (n - (k + 1)), ?_, ?_⟩
  · have h1 : (k : Nat) :: List.range' (k + 1) (n - (k + 1)) =
        List.range' k (n - (k + 1) + 1) := by
      rw [List.range'_succ]
    rw [List.range_eq_range', h1]
    have h2 := List.range'_append_1 0 k (n - (k + 1) + 1)
    rw [Nat.zero_add] at h2
    rw [h2]
    congr 1
    omega
  · intro a ha
    have : a < k := by
      have := List.mem_range'_1.mp ha
      omega
    simp [hmin a this]

theorem isqrt_eq_sqrt (m : Nat) : isqrt m = Nat.sqrt m := by
  unfold isqrt
  have hfind : (List.range (m + 1)).find?
      (fun k => decide (m < (k + 1) * (k + 1))) = some (Nat.sqrt m) := by
    apply find?_range_eq_some
    · exact Nat.lt_succ_of_le (Nat.sqrt_le_self m)
    · simpa using Nat.lt_succ_sqrt m
    · intro j hj
      simp only [decide_eq_false_iff_not, not_lt]
      calc (j + 1) * (j + 1) ≤ Nat.sqrt m * Nat.sqrt m :=
            Nat.mul_le_mul (by omega) (by omega)
        _ ≤ m := Nat.sqrt_le m
  rw [hfind]

theorem mem_le_max?_getD {l : List ℚ} {x : ℚ} (hx : x ∈ l) (d : ℚ) :
    x ≤ l.max?.getD d := by
  have hs := List.isSome_max?_of_mem hx
  obtain ⟨m, hm⟩ := Option.isSome_iff_exists.mp hs
  rw [hm, Option.getD_some]
  exact (List.max?_le_iff (fun a b c => max_le_iff) hm).mp le_rfl x hx

theorem max?_getD_mem {l : List ℚ} (h : l ≠ []) (d : ℚ) :
    l.max?.getD d ∈ l := by
  obtain ⟨x, hx⟩ := List.exists_mem_of_ne_nil l h
  obtain ⟨m, hm⟩ := Option.isSome_iff_exists.mp (List.isSome_max?_of_mem hx)
  rw [hm, Option.getD_some]
  exact List.max?_mem max_choice hm

theorem foldl_add_count (f : List Char → Nat) (words : List (List Char)) :
    ∀ a : ℚ, words.foldl (fun acc w => acc + (f w : ℚ)) a
      = a + ((words.map f).sum : ℕ) := by
  induction words with
  | nil => intro a; simp
  | cons w ws ih =>
    intro a
    simp only [List.foldl_cons, List.map_cons, List.sum_cons, ih]
    push_cast
    ring

theorem getD_set_self {α : Type} (l : List α) (i : Nat) (x d : α)
    (hi : i < l.length) : (l.set i x).getD i d = x := by
  simp [List.getD_eq_getElem?_getD, List.getElem?_set_self hi]

theorem getD_set_of_ne {α : Type} (l : List α) {i a : Nat} (x d : α)
    (h : i ≠ a) : (l.set i x).getD a d = l.getD a d := by
  simp [List.getD_eq_getElem?_getD, List.getElem?_set_ne h]

theorem flat_pos_inj {n a b i j : Nat} (hb : b < n) (hj : j < n)
    (h : a * n + b = i * n + j) : a = i ∧ b = j := by
  have hn : 0 < n := by omega
  have h1 : (a * n + b) % n = b := by
    rw [Nat.add_comm, Nat.add_mul_mod_self_right]; exact Nat.mod_eq_of_lt hb
  have h2 : (i * n + j) % n = j := by
    rw [Nat.add_comm, Nat.add_mul_mod_self_right]; exact Nat.mod_eq_of_lt hj
  have hbj : b = j := by rw [← h1, h, h2]
  refine ⟨?_, hbj⟩
  subst hbj
  have hmul : a * n = i * n := by omega
  exact Nat.eq_of_mul_eq_mul_right (by omega) hmul

theorem lexLe_total : ∀ a b : List Char, lexLe a b = true ∨ lexLe b a = true := by
  intro a
  induction a with
  | nil => intro b; left; rfl
  | cons x as ih =>
    intro b
    cases b with
    | nil => right; rfl
    | cons y bs =>
      by_cases h1 : x < y
      · left; simp [lexLe, h1]
      · by_cases h2 : y < x
        · right; simp [lexLe, h2]
        · rcases ih bs with h | h
          · left; simp [lexLe, h1, h2, h]
          · right; simp [lexLe, h1, h2, h]

theorem lexLe_cons_iff {x y : Char} {as bs : List Char} :
    lexLe (x :: as) (y :: bs) = true ↔
      x < y ∨ (¬x < y ∧ ¬y < x ∧ lexLe as bs = true) := by
  by_cases h1 : x < y
  · simp [lexLe, h1]
  · by_cases h2 : y < x
    · simp [lexLe, h1, h2]
    · simp [lexLe, h1, h2]

theorem lexLe_trans : ∀ a b c : List Char,
    lexLe a b = true → lexLe b c = true → lexLe a c = true := by
  intro a
  induction a with
  | nil => intro b c _ _; rfl
  | cons x as ih =>
    intro b c hab hbc
    cases b with
    | nil => simp [lexLe] at hab
    | cons y bs =>
      cases c with
      | nil => simp [lexLe] at hbc
      | cons z cs =>
        rw [lexLe_cons_iff] at hab hbc ⊢
        rcases hab with h | ⟨h1, h2, h3⟩
        · rcases hbc with h' | ⟨h1', h2', h3'⟩
          · exact Or.inl (h.trans h')
          · have : y = z := le_antisymm (not_lt.mp h2') (not_lt.mp h1')
            exact Or.inl (this ▸ h)
        · have hxy : x = y := le_antisymm (not_lt.mp h2) (not_lt.mp h1)
          rcases hbc with h' | ⟨h1', h2', h3'⟩
          · exact Or.inl (hxy ▸ h')
          · exact Or.inr ⟨hxy ▸ h1', hxy ▸ h2', ih bs cs h3 h3'⟩

theorem lexLe_antisymm : ∀ a b : List Char,
    lexLe a b = true → lexLe b a = true → a = b := by
  intro a
  induction a with
  | nil =>
    intro b _ hba
    cases b with
    | nil => rfl
    | cons y bs => simp [lexLe] at hba
  | cons x as ih =>
    intro b hab hba
    cases b with
    | nil => simp [lexLe] at hab
    | cons y bs =>
      rw [lexLe_cons_iff] at hab hba
      rcases hab with h | ⟨h1, h2, h3⟩
      · rcases hba with h' | ⟨h1', h2', h3'⟩
        · exact absurd h' (lt_asymm h)
        · exact absurd h h2'
      · rcases hba with h' | ⟨h1', h2', h3'⟩
        · exact absurd h' h2
        · have hxy : x = y := le_antisymm (not_lt.mp h2) (not_lt.mp h1)
          rw [hxy, ih bs h3 h3']

theorem insertSorted_perm (x : List Char) (l : List (List Char)) :
    (insertSorted x l).Perm (x :: l) := by
  induction l with
  | nil => exact List.Perm.refl _
  | cons y ys ih =>
    unfold insertSorted
    split
    · exact List.Perm.refl _
    · exact (List.Perm.cons y ih).trans (List.Perm.swap x y ys)

theorem sortKeys_perm (l : List (List Char)) : (sortKeys l).Perm l := by
  induction l with
  | nil => exact List.Perm.refl _
  | cons x xs ih =>
    exact (insertSorted_perm x (sortKeys xs)).trans (List.Perm.cons x ih)

theorem insertSorted_pairwise (x : List Char) (l : List (List Char))
    (hl : l.Pairwise (fun a b => lexLe a b = true)) :
    (insertSorted x l).Pairwise (fun a b => lexLe a b = true) := by
  induction l with
  | nil => simp [insertSorted]
  | cons y ys ih =>
    unfold insertSorted
    rcases List.pairwise_cons.mp hl with ⟨hy, hys⟩
    split
    · rename_i hxy
      refine List.pairwise_cons.mpr ⟨?_, hl⟩
      intro b hb
      cases hb with
      | head => exact hxy
      | tail _ hb => exact lexLe_trans _ _ _ hxy (hy b hb)
    · rename_i hxy
      have hyx : lexLe y x = true := by
        rcases lexLe_total x y with h | h
        · exact absurd h hxy
        · exact h
      refine List.pairwise_cons.mpr ⟨?_, ih hys⟩
      intro b hb
      have hb' : b ∈ x :: ys := (insertSorted_perm x ys).mem_iff.mp hb
      cases hb' with
      | head => exact hyx
      | tail _ hb' => exact hy b hb'

theorem sortKeys_pairwise (l : List (List Char)) :
    (sortKeys l).Pairwise (fun a b => lexLe a b = true) := by
  induction l with
  | nil => simp [sortKeys]
  | cons x xs ih => exact insertSorted_pairwise x (sortKeys xs) ih

theorem sortKeys_length (l : List (List Char)) :
    (sortKeys l).length = l.length :=
  (sortKeys_perm l).length_eq

theorem lookup_map_pair (f : List Char → ℚ) :
    ∀ (l : List (List Char)) (k : List Char), k ∈ l →
      (l.map (fun c => (c, f c))).lookup k = some (f k) := by
  intro l
  induction l with
  | nil => intro k hk; cases hk
  | cons c cs ih =>
    intro k hk
    by_cases h : k = c
    · subst h
      simp [List.lookup]
    · have hk' : k ∈ cs := by
        cases hk with
        | head => exact absurd rfl h
        | tail _ h' => exact h'
      have hbeq : (k == c) = false := beq_eq_false_iff_ne.mpr h
      simp [List.lookup, hbeq, ih _ hk']

theorem count_frequencies_map_fst (words : List (List Char))
    (alphabet : List Char) :
    (count_frequencies words alphabet).map Prod.fst
      = build_combinations alphabet := by
  unfold count_frequencies
  rw [List.map_map]
  have h : (Prod.fst ∘ fun c : List Char =>
      (c, words.foldl (fun acc w => acc + (count_substr w c : ℚ)) 0)) = id := rfl
  rw [h, List.map_id]

theorem count_frequencies_lookup (words : List (List Char))
    (alphabet : List Char) {k : List Char} (hk : k ∈ build_combinations alphabet) :
    (count_frequencies words alphabet).lookup k
      = some (((words.map (fun w => count_substr w k)).sum : ℕ) : ℚ) := by
  unfold count_frequencies
  rw [lookup_map_pair _ _ _ hk, foldl_add_count]
  simp

theorem count_frequencies_snd_nonneg (words : List (List Char))
    (alphabet : List Char) :
    ∀ p ∈ count_frequencies words alphabet, 0 ≤ p.2 := by
  intro p hp
  obtain ⟨c, _, rfl⟩ := List.mem_map.mp hp
  simp only [foldl_add_count]
  positivity

theorem placeKeys_shape (freqs : List (List Char × ℚ)) (nf : ℚ) (n : Nat) :
    ∀ (keys : List (List Char)) (i j : Nat) (mat : List (List ℚ)),
      (∀ r ∈ mat, r.length = n) →
      (placeKeys freqs nf n keys i j mat).length = mat.length ∧
      ∀ r ∈ placeKeys freqs nf n keys i j mat, r.length = n := by
  intro keys
  induction keys with
  | nil => intro i j mat hrows; exact ⟨rfl, hrows⟩
  | cons key rest ih =>
    intro i j mat hrows
    rw [placeKeys]
    have hset : ∀ r ∈ mat.set i ((mat.getD i []).set (j % n) (scaleVal freqs nf key)),
        r.length = n := by
      by_cases hiL : i < mat.length
      · intro r hr
        rcases List.mem_or_eq_of_mem_set hr with hr' | rfl
        · exact hrows _ hr'
        · rw [List.length_set]
          have hmem : mat.getD i [] ∈ mat := by
            rw [List.getD_eq_getElem?_getD, List.getElem?_eq_getElem hiL]
            exact List.getElem_mem _
          exact hrows _ hmem
      · rw [List.set_eq_of_length_le (by omega)]
        exact hrows
    have hlen : (mat.set i ((mat.getD i []).set (j % n) (scaleVal freqs nf key))).length
        = mat.length := List.length_set ..
    split
    · obtain ⟨h1, h2⟩ := ih (i + 1) (j % n + 1) _ hset
      exact ⟨h1.trans hlen, h2⟩
    · obtain ⟨h1, h2⟩ := ih i (j % n + 1) _ hset
      exact ⟨h1.trans hlen, h2⟩

theorem placeKeys_getD (freqs : List (List Char × ℚ)) (nf : ℚ) {n : Nat} (hn : 0 < n) :
    ∀ (keys : List (List Char)) (i j : Nat) (mat : List (List ℚ)),
      mat.length = n → (∀ r ∈ mat, r.length = n) →
      i * n + j % n + keys.length ≤ n * n →
      ∀ a b : Nat, a < n → b < n →
      ((placeKeys freqs nf n keys i j mat).getD a []).getD b 0 =
        if i * n + j % n ≤ a * n + b ∧ a * n + b < i * n + j % n + keys.length
        then scaleVal freqs nf (keys.getD (a * n + b - (i * n + j % n)) [])
        else (mat.getD a []).getD b 0 := by
  intro keys
  induction keys with
  | nil =>
    intro i j mat hmat hrows hfit a b ha hb
    have hng : ¬(i * n + j % n ≤ a * n + b ∧
        a * n + b < i * n + j % n + ([] : List (List Char)).length) := by
      simp only [List.length_nil]; omega
    rw [placeKeys, if_neg hng]
  | cons key rest ih =>
    intro i j mat hmat hrows hfit a b ha hb
    have hj1n : j % n < n := Nat.mod_lt _ hn
    have hi : i < n := by
      by_contra hcon
      push_neg at hcon
      have h2 : n * n ≤ i * n := Nat.mul_le_mul_right n hcon
      simp only [List.length_cons] at hfit
      omega
    have hiL : i < mat.length := by omega
    have hrow_len : (mat.getD i []).length = n := by
      have hmem : mat.getD i [] ∈ mat := by
        rw [List.getD_eq_getElem?_getD, List.getElem?_eq_getElem hiL]
        exact List.getElem_mem _
      exact hrows _ hmem
    have hmat1len :
        (mat.set i ((mat.getD i []).set (j % n) (scaleVal freqs nf key))).length = n := by
      rw [List.length_set]; exact hmat
    have hrows1 : ∀ r ∈ mat.set i ((mat.getD i []).set (j % n) (scaleVal freqs nf key)),
        r.length = n := by
      intro r hr
      rcases List.mem_or_eq_of_mem_set hr with hr' | rfl
      · exact hrows _ hr'
      · rw [List.length_set]; exact hrow_len
    have hcell : ∀ a' b', b' < n →
        (((mat.set i ((mat.getD i []).set (j % n) (scaleVal freqs nf key))).getD a' []).getD b' 0)
          = if i = a' ∧ j % n = b' then scaleVal freqs nf key
            else (mat.getD a' []).getD b' 0 := by
      intro a' b' hb'
      by_cases hai : i = a'
      · subst hai
        rw [getD_set_self _ _ _ _ hiL]
        by_cases hbj : j % n = b'
        · subst hbj
          rw [getD_set_self _ _ _ _ (by omega)]
          simp
        · rw [getD_set_of_ne _ _ _ hbj, if_neg (fun hk => hbj hk.2)]
      · rw [getD_set_of_ne _ _ _ hai, if_neg (fun hk => hai hk.1)]
    have hlc : (key :: rest).length = rest.length + 1 := List.length_cons ..
    rw [placeKeys]
    by_cases hwrap : j % n + 1 = n
    · rw [if_pos hwrap]
      have hsm : (i + 1) * n = i * n + n := Nat.succ_mul i n
      have hmod0 : (j % n + 1) % n = 0 := by rw [hwrap, Nat.mod_self]
      have hfit1 : (i + 1) * n + (j % n + 1) % n + rest.length ≤ n * n := by
        rw [hmod0, hsm]
        simp only [List.length_cons] at hfit
        omega
      rw [ih (i + 1) (j % n + 1) _ hmat1len hrows1 hfit1 a b ha hb]
      rw [hmod0, hsm]
      by_cases hp : i * n + j % n = a * n + b
      · obtain ⟨hai, hbj⟩ := flat_pos_inj hb hj1n hp.symm
        have hng : ¬(i * n + n + 0 ≤ a * n + b ∧
            a * n + b < i * n + n + 0 + rest.length) := by omega
        have hpg : i * n + j % n ≤ a * n + b ∧
            a * n + b < i * n + j % n + (key :: rest).length := by
          simp only [List.length_cons]; omega
        rw [if_neg hng, if_pos hpg]
        rw [hcell a b hb, if_pos ⟨hai.symm, hbj.symm⟩]
        have hz : a * n + b - (i * n + j % n) = 0 := by omega
        rw [hz, List.getD_cons_zero]
      · by_cases hq : i * n + n + 0 ≤ a * n + b ∧ a * n + b < i * n + n + 0 + rest.length
        · have hpg : i * n + j % n ≤ a * n + b ∧
              a * n + b < i * n + j % n + (key :: rest).length := by
            simp only [List.length_cons]; omega
          rw [if_pos hq, if_pos hpg]
          have hidx : a * n + b - (i * n + j % n) = (a * n + b - (i * n + n + 0)) + 1 := by
            omega
          rw [hidx, List.getD_cons_succ]
        · have hng : ¬(i * n + j % n ≤ a * n + b ∧
              a * n + b < i * n + j % n + (key :: rest).length) := by
            simp only [List.length_cons]; omega
          rw [if_neg hq, if_neg hng]
          rw [hcell a b hb, if_neg (fun hk => hp (by rw [hk.1, hk.2]))]
    · rw [if_neg hwrap]
      have hmodlt : (j % n + 1) % n = j % n + 1 := Nat.mod_eq_of_lt (by omega)
      have hfit1 : i * n + (j % n + 1) % n + rest.length ≤ n * n := by
        rw [hmodlt]
        simp only [List.length_cons] at hfit
        omega
      rw [ih i (j % n + 1) _ hmat1len hrows1 hfit1 a b ha hb]
      rw [hmodlt]
      by_cases hp : i * n + j % n = a * n + b
      · obtain ⟨hai, hbj⟩ := flat_pos_inj hb hj1n hp.symm
        have hng : ¬(i * n + (j % n + 1) ≤ a * n + b ∧
            a * n + b < i * n + (j % n + 1) + rest.length) := by omega
        have hpg : i * n + j % n ≤ a * n + b ∧
            a * n + b < i * n + j % n + (key :: rest).length := by
          simp only [List.length_cons]; omega
        rw [if_neg hng, if_pos hpg]
        rw [hcell a b hb, if_pos ⟨hai.symm, hbj.symm⟩]
        have hz : a * n + b - (i * n + j % n) = 0 := by omega
        rw [hz, List.getD_cons_zero]
      · by_cases hq : i * n + (j % n + 1) ≤ a * n + b ∧
            a * n + b < i * n + (j % n + 1) + rest.length
        · have hpg : i * n + j % n ≤ a * n + b ∧
              a * n + b < i * n + j % n + (key :: rest).length := by
            simp only [List.length_cons]; omega
          rw [if_pos hq, if_pos hpg]
          have hidx : a * n + b - (i * n + j % n) = (a * n + b - (i * n + (j % n + 1))) + 1 := by
            omega
          rw [hidx, List.getD_cons_succ]
        · have hng : ¬(i * n + j % n ≤ a * n + b ∧
              a * n + b < i * n + j % n + (key :: rest).length) := by
            simp only [List.length_cons]; omega
          rw [if_neg hq, if_neg hng]
          rw [hcell a b hb, if_neg (fun hk => hp (by rw [hk.1, hk.2]))]

theorem build_bitmap_ok {freqs : List (List Char × ℚ)} {n : Nat}
    (h : freqs.length = n * n) (nf : ℚ) :
    build_bitmap freqs nf = .ok (placeKeys freqs nf n
      (sortKeys (freqs.map Prod.fst)) 0 0
      (List.replicate n (List.replicate n 0))) := by
  have hs : isqrt freqs.length = n := by
    rw [isqrt_eq_sqrt, h, Nat.sqrt_eq]
  have hcond : ¬(isqrt freqs.length * isqrt freqs.length ≠ freqs.length) := by
    rw [hs, h]; exact fun hk => hk rfl
  unfold build_bitmap
  rw [if_neg hcond, hs]

theorem build_bitmap_error {freqs : List (List Char × ℚ)} (nf : ℚ)
    (h : Nat.sqrt freqs.length * Nat.sqrt freqs.length ≠ freqs.length) :
    build_bitmap freqs nf = .error .invalidInput := by
  have hcond : isqrt freqs.length * isqrt freqs.length ≠ freqs.length := by
    rw [isqrt_eq_sqrt]; exact h
  unfold build_bitmap
  rw [if_pos hcond]

theorem build_bitmap_spec {freqs : List (List Char × ℚ)} {n : Nat}
    (h : freqs.length = n * n) (hn : 0 < n) (nf : ℚ) :
    ∃ M, build_bitmap freqs nf = .ok M ∧ M.length = n ∧
      (∀ r ∈ M, r.length = n) ∧
      ∀ a b : Nat, a < n → b < n →
        (M.getD a []).getD b 0
          = scaleVal freqs nf ((sortKeys (freqs.map Prod.fst)).getD (a * n + b) []) := by
  refine ⟨_, build_bitmap_ok h nf, ?_, ?_, ?_⟩
  · have hz := placeKeys_shape freqs nf n (sortKeys (freqs.map Prod.fst)) 0 0
      (List.replicate n (List.replicate n 0))
      (fun r hr => by rw [(List.eq_of_mem_replicate hr : r = _)]; exact List.length_replicate ..)
    rw [hz.1, List.length_replicate]
  · exact (placeKeys_shape freqs nf n (sortKeys (freqs.map Prod.fst)) 0 0
      (List.replicate n (List.replicate n 0))
      (fun r hr => by rw [(List.eq_of_mem_replicate hr : r = _)]; exact List.length_replicate ..)).2
  · intro a b ha hb
    have hkeyslen : (sortKeys (freqs.map Prod.fst)).length = n * n := by
      rw [sortKeys_length, List.length_map, h]
    have hfit : 0 * n + 0 % n + (sortKeys (freqs.map Prod.fst)).length ≤ n * n := by
      rw [hkeyslen]
      simp only [Nat.zero_mul, Nat.zero_mod]
      omega
    have hflat : a * n + b < n * n := by
      calc a * n + b < a * n + n := by omega
        _ = (a + 1) * n := (Nat.succ_mul a n).symm
        _ ≤ n * n := Nat.mul_le_mul_right n (by omega)
    have := placeKeys_getD freqs nf hn (sortKeys (freqs.map Prod.fst)) 0 0
      (List.replicate n (List.replicate n 0)) (List.length_replicate ..)
      (fun r hr => by rw [(List.eq_of_mem_replicate hr : r = _)]; exact List.length_replicate ..)
      hfit a b ha hb
    rw [this]
    have hcond : 0 * n + 0 % n ≤ a * n + b ∧
        a * n + b < 0 * n + 0 % n + (sortKeys (freqs.map Prod.fst)).length := by
      rw [hkeyslen]
      simp only [Nat.zero_mul, Nat.zero_mod]
      omega
    rw [if_pos hcond]
    have hidx : a * n + b - (0 * n + 0 % n) = a * n + b := by simp
    rw [hidx]

theorem dist_self (m : List (List ℚ)) : dist m m = 0 := by
  unfold dist
  induction m with
  | nil => rfl
  | cons r rs ih =>
    rw [List.zipWith_cons_cons, List.sum_cons]
    rw [ih]
    have hr : (List.zipWith (fun x y => (x - y) ^ 2) r r).sum = 0 := by
      induction r with
      | nil => rfl
      | cons x xs ihx =>
        rw [List.zipWith_cons_cons, List.sum_cons, ihx]
        ring
    rw [hr]
    ring

theorem dist_comm (a b : List (List ℚ)) : dist a b = dist b a := by
  unfold dist
  induction a generalizing b with
  | nil => cases b <;> rfl
  | cons r rs ih =>
    cases b with
    | nil => rfl
    | cons s ss =>
      rw [List.zipWith_cons_cons, List.zipWith_cons_cons, List.sum_cons, List.sum_cons, ih ss]
      have hr : (List.zipWith (fun x y => (x - y) ^ 2) r s).sum
          = (List.zipWith (fun x y => (x - y) ^ 2) s r).sum := by
        induction r generalizing s with
        | nil => cases s <;> rfl
        | cons x xs ihx =>
          cases s with
          | nil => rfl
          | cons y ys =>
            rw [List.zipWith_cons_cons, List.zipWith_cons_cons, List.sum_cons,
              List.sum_cons, ihx ys]
            ring_nf
      rw [hr]

theorem dist_nonneg (a b : List (List ℚ)) : 0 ≤ dist a b := by
  unfold dist
  induction a generalizing b with
  | nil => cases b <;> simp
  | cons r rs ih =>
    cases b with
    | nil => simp
    | cons s ss =>
      rw [List.zipWith_cons_cons, List.sum_cons]
      have hr : 0 ≤ (List.zipWith (fun x y => (x - y) ^ 2) r s).sum := by
        induction r generalizing s with
        | nil => cases s <;> simp
        | cons x xs ihx =>
          cases s with
          | nil => simp
          | cons y ys =>
            rw [List.zipWith_cons_cons, List.sum_cons]
            have := ihx ys
            positivity
      have := ih ss
      positivity

theorem getD_mem {l : List Char} {i : Nat} (hi : i < l.length) (d : Char) :
    l.getD i d ∈ l := by
  rw [List.getD_eq_getElem?_getD, List.getElem?_eq_getElem hi]
  exact List.getElem_mem _

theorem mem_build_combinations {alphabet : List Char} {x : List Char} :
    x ∈ build_combinations alphabet ↔
      ∃ a ∈ alphabet, ∃ b ∈ alphabet, x = [a, b] := by
  unfold build_combinations
  rw [List.mem_dedup, List.mem_append]
  constructor
  · rintro (hx | hx)
    · obtain ⟨i, hi, hx⟩ := List.mem_flatMap.mp hx
      obtain ⟨j, hj, rfl⟩ := List.mem_map.mp hx
      rw [List.mem_range] at hi
      have hj2 := (List.mem_filter.mp hj).1
      rw [List.mem_range] at hj2
      exact ⟨_, getD_mem hi 'a', _, getD_mem hj2 'a', rfl⟩
    · obtain ⟨c, hc, rfl⟩ := List.mem_map.mp hx
      exact ⟨c, hc, c, hc, rfl⟩
  · rintro ⟨a, ha, b, hb, rfl⟩
    by_cases hab : a = b
    · subst hab
      exact Or.inr (List.mem_map.mpr ⟨a, ha, rfl⟩)
    · left
      obtain ⟨i, hi, hia⟩ := List.getElem_of_mem ha
      obtain ⟨j, hj, hjb⟩ := List.getElem_of_mem hb
      refine List.mem_flatMap.mpr ⟨i, List.mem_range.mpr hi, List.mem_map.mpr ⟨j, ?_, ?_⟩⟩
      · refine List.mem_filter.mpr ⟨List.mem_range.mpr hj, ?_⟩
        refine bne_iff_ne.mpr (fun hk => hab ?_)
        subst hk
        rw [← hia, ← hjb]
      · rw [List.getD_eq_getElem?_getD, List.getElem?_eq_getElem hi,
          List.getD_eq_getElem?_getD, List.getElem?_eq_getElem hj]
        simp [hia, hjb]

theorem build_combinations_nodup (alphabet : List Char) :
    (build_combinations alphabet).Nodup := by
  unfold build_combinations
  exact List.nodup_dedup _

theorem build_combinations_toFinset (alphabet : List Char) :
    (build_combinations alphabet).toFinset
      = (alphabet.toFinset ×ˢ alphabet.toFinset).image
          (fun p : Char × Char => [p.1, p.2]) := by
  ext x
  simp only [List.mem_toFinset, Finset.mem_image, Finset.mem_product,
    mem_build_combinations]
  constructor
  · rintro ⟨a, ha, b, hb, rfl⟩
    exact ⟨(a, b), ⟨ha, hb⟩, rfl⟩
  · rintro ⟨⟨a, b⟩, ⟨ha, hb⟩, rfl⟩
    exact ⟨a, ha, b, hb, rfl⟩

theorem pair_injective : Function.Injective (fun p : Char × Char => [p.1, p.2]) := by
  rintro ⟨a, b⟩ ⟨c, d⟩ h
  simp only [List.cons.injEq, and_true] at h
  simp [h.1, h.2]

theorem build_combinations_length (alphabet : List Char)
    (hnd : alphabet.Nodup) :
    (build_combinations alphabet).length = alphabet.length * alphabet.length := by
  have h1 : (build_combinations alphabet).length
      = (build_combinations alphabet).toFinset.card :=
    (List.toFinset_card_of_nodup (build_combinations_nodup alphabet)).symm
  rw [h1, build_combinations_toFinset,
    Finset.card_image_of_injective _ pair_injective, Finset.card_product,
    List.toFinset_card_of_nodup hnd]

theorem lookup_mem {l : List (List Char × ℚ)} {k : List Char} {v : ℚ}
    (h : l.lookup k = some v) : (k, v) ∈ l := by
  induction l with
  | nil => simp [List.lookup] at h
  | cons p ps ih =>
    obtain ⟨a, b⟩ := p
    by_cases hk : k = a
    · subst hk
      rw [List.lookup_cons_self] at h
      cases h
      exact List.mem_cons_self ..
    · rw [List.lookup, beq_eq_false_iff_ne.mpr hk] at h
      exact List.mem_cons_of_mem _ (ih h)

theorem norm_factor_eq_spec (t1 t2 : List (List Char × ℚ))
    (h : t1 ≠ [] ∨ t2 ≠ []) :
    norm_factor t1 t2 = spec_norm_factor t1 t2 := by
  have hne : t1.map Prod.snd ++ t2.map Prod.snd ≠ [] := by
    intro hc
    rw [List.append_eq_nil] at hc
    rcases h with h | h
    · exact h (List.map_eq_nil_iff.mp hc.1)
    · exact h (List.map_eq_nil_iff.mp hc.2)
  have hsne : ((t1.map Prod.snd).toFinset ∪ (t2.map Prod.snd).toFinset).Nonempty := by
    obtain ⟨x, hx⟩ := List.exists_mem_of_ne_nil _ hne
    refine ⟨x, ?_⟩
    rw [← List.toFinset_append]
    exact List.mem_toFinset.mpr hx
  unfold norm_factor spec_norm_factor
  rw [← Finset.coe_max' hsne, WithBot.unbot'_coe]
  apply le_antisymm
  · apply Finset.le_max'
    have hm := max?_getD_mem hne 0
    rw [List.mem_append] at hm
    rw [Finset.mem_union]
    rcases hm with hm | hm
    · exact Or.inl (List.mem_toFinset.mpr hm)
    · exact Or.inr (List.mem_toFinset.mpr hm)
  · apply mem_le_max?_getD
    have hmem := Finset.max'_mem _ hsne
    rw [Finset.mem_union] at hmem
    rcases hmem with hm | hm
    · exact List.mem_append.mpr (Or.inl (List.mem_toFinset.mp hm))
    · exact List.mem_append.mpr (Or.inr (List.mem_toFinset.mp hm))

theorem sum_map_add {α : Type} (l : List α) (f g : α → ℕ) :
    (l.map (fun x => f x + g x)).sum = (l.map f).sum + (l.map g).sum := by
  induction l with
  | nil => rfl
  | cons x xs ih =>
    simp only [List.map_cons, List.sum_cons, ih]
    omega

theorem sum_ite_zero {ks : List (List Char)} {x : List Char} (hx : x ∉ ks) :
    (ks.map (fun k => if x == k then (1 : ℕ) else 0)).sum = 0 := by
  induction ks with
  | nil => rfl
  | cons k ks ih =>
    have hxk : x ≠ k := fun hc => hx (hc ▸ List.mem_cons_self ..)
    simp only [List.map_cons, List.sum_cons]
    rw [if_neg (by simpa using hxk), ih (fun hc => hx (List.mem_cons_of_mem _ hc))]

theorem sum_ite_count {keys : List (List Char)} (hnd : keys.Nodup)
    {x : List Char} (hx : x ∈ keys) :
    (keys.map (fun k => if x == k then (1 : ℕ) else 0)).sum = 1 := by
  induction keys with
  | nil => cases hx
  | cons k ks ih =>
    rcases List.nodup_cons.mp hnd with ⟨hk, hnd'⟩
    simp only [List.map_cons, List.sum_cons]
    cases hx with
    | head =>
      rw [if_pos (by simp), sum_ite_zero hk]
    | tail _ hx' =>
      have hxk : x ≠ k := fun hc => hk (hc ▸ hx')
      rw [if_neg (by simpa using hxk), ih hnd' hx']

theorem sum_countP_eq {keys : List (List Char)} (hnd : keys.Nodup)
    (f : Nat → List Char) (R : List Nat) (hcov : ∀ i ∈ R, f i ∈ keys) :
    (keys.map (fun k => R.countP (fun t => f t == k))).sum = R.length := by
  induction R with
  | nil => simp
  | cons i R ih =>
    have hcov' : ∀ j ∈ R, f j ∈ keys := fun j hj => hcov j (List.mem_cons_of_mem _ hj)
    have hfi : f i ∈ keys := hcov i (List.mem_cons_self ..)
    have h1 : keys.map (fun k => (i :: R).countP (fun t => f t == k))
        = keys.map (fun k => R.countP (fun t => f t == k)
            + if f i == k then 1 else 0) := by
      apply List.map_congr_left
      intro k _
      rw [List.countP_cons]
    rw [h1, sum_map_add, ih hcov', sum_ite_count hnd hfi, List.length_cons]

theorem bigram_mem_catalog {alphabet w : List Char} (hw : ∀ c ∈ w, c ∈ alphabet)
    {i : Nat} (hi : i + 1 < w.length) :
    (w.drop i).take 2 ∈ build_combinations alphabet := by
  have hilt : i < w.length := by omega
  have h1 : w.drop i = w.get ⟨i, hilt⟩ :: w.drop (i + 1) :=
    List.drop_eq_getElem_cons hilt
  have h2 : w.drop (i + 1) = w.get ⟨i + 1, hi⟩ :: w.drop (i + 2) :=
    List.drop_eq_getElem_cons hi
  rw [h1, h2]
  exact mem_build_combinations.mpr
    ⟨_, hw _ (List.getElem_mem _), _, hw _ (List.getElem_mem _), rfl⟩

theorem count_substr_eq_countP (w k : List Char) :
    count_substr w k = (List.range (w.length + 1 - k.length)).countP
      (fun i => (w.drop i).take k.length == k) := by
  unfold count_substr
  rw [List.countP_eq_length_filter]

theorem sum_count_substr_catalog {alphabet w : List Char}
    (hw : ∀ c ∈ w, c ∈ alphabet) :
    ((build_combinations alphabet).map (fun k => count_substr w k)).sum
      = w.length - 1 := by
  have hmap : (build_combinations alphabet).map (fun k => count_substr w k)
      = (build_combinations alphabet).map
          (fun k => (List.range (w.length - 1)).countP
            (fun i => (w.drop i).take 2 == k)) := by
    apply List.map_congr_left
    intro k hk
    obtain ⟨a, _, b, _, rfl⟩ := mem_build_combinations.mp hk
    rw [count_substr_eq_countP]
    have hlen : ([a, b] : List Char).length = 2 := rfl
    rw [hlen, show w.length + 1 - 2 = w.length - 1 from by omega]
  rw [hmap]
  have hcov : ∀ i ∈ List.range (w.length - 1), (w.drop i).take 2
      ∈ build_combinations alphabet := by
    intro i hi
    rw [List.mem_range] at hi
    exact bigram_mem_catalog hw (by omega)
  rw [sum_countP_eq (build_combinations_nodup alphabet) _ _ hcov, List.length_range]

theorem sum_sum_swap (keys words : List (List Char)) :
    (keys.map (fun k => (words.map (fun w => count_substr w k)).sum)).sum
      = (words.map (fun w => (keys.map (fun k => count_substr w k)).sum)).sum := by
  induction words with
  | nil => simp
  | cons w ws ih =>
    simp only [List.map_cons, List.sum_cons]
    rw [← ih]
    exact sum_map_add keys _ _

theorem count_frequencies_values_total {alphabet : List Char}
    {words : List (List Char)} (hw : ∀ w ∈ words, ∀ c ∈ w, c ∈ alphabet) :
    ((count_frequencies words alphabet).map Prod.snd).sum
      = (((words.map (fun w => w.length - 1)).sum : ℕ) : ℚ) := by
  unfold count_frequencies
  rw [List.map_map]
  have hcomp : (Prod.snd ∘ fun c : List Char =>
      (c, words.foldl (fun acc w => acc + (count_substr w c : ℚ)) 0)) =
      fun c => words.foldl (fun acc w => acc + (count_substr w c : ℚ)) 0 := rfl
  rw [hcomp]
  have hmap : (build_combinations alphabet).map
        (fun c => words.foldl (fun acc w => acc + (count_substr w c : ℚ)) 0)
      = (build_combinations alphabet).map
          (fun c => (((words.map (fun w => count_substr w c)).sum : ℕ) : ℚ)) := by
    apply List.map_congr_left
    intro k _
    rw [foldl_add_count]
    simp
  rw [hmap]
  have hcast : (build_combinations alphabet).map
        (fun c => (((words.map (fun w => count_substr w c)).sum : ℕ) : ℚ))
      = ((build_combinations alphabet).map
          (fun c => (words.map (fun w => count_substr w c)).sum)).map
            (fun n : ℕ => (n : ℚ)) := by
    rw [List.map_map]
    rfl
  rw [hcast, ← Nat.cast_list_sum]
  congr 1
  rw [sum_sum_swap]
  congr 1
  apply List.map_congr_left
  intro w hwmem
  exact sum_count_substr_catalog (hw w hwmem)

/-! ### Window-controller lemmas -/

theorem dequeAppend_length (M : Nat) (q : List ℚ) (x : ℚ) :
    (dequeAppend M q x).length = min (q.length + 1) M := by
  simp only [dequeAppend]
  split
  · rename_i h
    rw [List.length_drop, List.length_append] at *
    simp only [List.length_cons, List.length_nil] at *
    omega
  · rename_i h
    rw [List.length_append] at *
    simp only [List.length_cons, List.length_nil, Nat.not_lt] at *
    omega

theorem drop_replicate_q (k m : Nat) (c : ℚ) :
    (List.replicate m c).drop k = List.replicate (m - k) c := by
  induction m generalizing k with
  | zero => simp
  | succ m ih =>
    cases k with
    | zero => simp
    | succ k =>
      rw [List.replicate_succ, List.drop_succ_cons, ih]
      congr 1
      omega

theorem dequeAppend_replicate (M a0 : Nat) (c : ℚ) :
    dequeAppend M (List.replicate a0 c) c
      = List.replicate (min (a0 + 1) M) c := by
  have h1 : List.replicate a0 c ++ [c] = List.replicate (a0 + 1) c :=
    (List.replicate_succ' a0 c).symm
  simp only [dequeAppend, h1]
  split
  · rename_i h
    rw [List.length_replicate] at h
    rw [List.length_replicate, drop_replicate_q]
    congr 1
    omega
  · rename_i h
    rw [List.length_replicate] at h
    congr 1
    omega

theorem detectStep_full_eq (std : List ℚ → ℚ) (bps : List ℚ) (cfg : Config)
    (x : ℚ) {hd : ℚ} {t lag : List ℚ}
    (h : (hd :: t).length = cfg.lead_maxlen) :
    detectStep std bps cfg ⟨hd :: t, lag⟩ x =
      (⟨dequeAppend cfg.lead_maxlen t x, dequeAppend cfg.lag_maxlen lag hd⟩,
       if (dequeAppend cfg.lead_maxlen t x).length = cfg.lead_maxlen
           ∧ (dequeAppend cfg.lag_maxlen lag hd).length = cfg.lag_maxlen
       then some (scoreWindows std bps cfg (dequeAppend cfg.lead_maxlen t x)
              (dequeAppend cfg.lag_maxlen lag hd))
       else none) := by
  by_cases hcond : (dequeAppend cfg.lead_maxlen t x).length = cfg.lead_maxlen
      ∧ (dequeAppend cfg.lag_maxlen lag hd).length = cfg.lag_maxlen
  · simp [detectStep, h, hcond]
  · simp [detectStep, h, hcond]

theorem detectStep_notfull_eq (std : List ℚ → ℚ) (bps : List ℚ) (cfg : Config)
    (x : ℚ) {s : DState} (h : ¬s.lead.length = cfg.lead_maxlen) :
    detectStep std bps cfg s x =
      (⟨dequeAppend cfg.lead_maxlen s.lead x, s.lag⟩,
       if (dequeAppend cfg.lead_maxlen s.lead x).length = cfg.lead_maxlen
           ∧ s.lag.length = cfg.lag_maxlen
       then some (scoreWindows std bps cfg
              (dequeAppend cfg.lead_maxlen s.lead x) s.lag)
       else none) := by
  obtain ⟨lead, lag⟩ := s
  simp only at h
  by_cases hcond : (dequeAppend cfg.lead_maxlen lead x).length = cfg.lead_maxlen
      ∧ lag.length = cfg.lag_maxlen
  · simp [detectStep, h, hcond]
  · simp [detectStep, h, hcond]

theorem detectStep_nilfull_eq (std : List ℚ → ℚ) (bps : List ℚ) (cfg : Config)
    (x : ℚ) {lag : List ℚ} (h : ([] : List ℚ).length = cfg.lead_maxlen) :
    detectStep std bps cfg ⟨[], lag⟩ x =
      (⟨dequeAppend cfg.lead_maxlen [] x, lag⟩,
       if (dequeAppend cfg.lead_maxlen [] x).length = cfg.lead_maxlen
           ∧ lag.length = cfg.lag_maxlen
       then some (scoreWindows std bps cfg (dequeAppend cfg.lead_maxlen [] x) lag)
       else none) := by
  by_cases hcond : (dequeAppend cfg.lead_maxlen [] x).length = cfg.lead_maxlen
      ∧ lag.length = cfg.lag_maxlen
  · simp [detectStep, h, hcond]
  · simp [detectStep, h, hcond]

theorem detectStep_some {std : List ℚ → ℚ} {bps : List ℚ} {cfg : Config}
    {s : DState} {x : ℚ} {a : Analysis}
    (h : (detectStep std bps cfg s x).2 = some a) :
    ∃ lead lag, lead.length = cfg.lead_maxlen ∧ lag.length = cfg.lag_maxlen ∧
      a = scoreWindows std bps cfg lead lag := by
  by_cases hfull : s.lead.length = cfg.lead_maxlen
  · obtain ⟨lead, lag⟩ := s
    cases lead with
    | nil =>
      rw [detectStep_nilfull_eq std bps cfg x hfull] at h
      split at h
      · rename_i hcond
        exact ⟨_, _, hcond.1, hcond.2, (Option.some_inj.mp h).symm⟩
      · exact Option.noConfusion h
    | cons hd t =>
      rw [detectStep_full_eq std bps cfg x hfull] at h
      split at h
      · rename_i hcond
        exact ⟨_, _, hcond.1, hcond.2, (Option.some_inj.mp h).symm⟩
      · exact Option.noConfusion h
  · rw [detectStep_notfull_eq std bps cfg x hfull] at h
    split at h
    · rename_i hcond
      exact ⟨_, _, hcond.1, hcond.2, (Option.some_inj.mp h).symm⟩
    · exact Option.noConfusion h

theorem detectFrom_mem (std : List ℚ → ℚ) (bps : List ℚ) (cfg : Config) :
    ∀ (xs : List ℚ) (s : DState) (a : Analysis),
      a ∈ (detectFrom std bps cfg s xs).2 →
      ∃ lead lag, lead.length = cfg.lead_maxlen ∧ lag.length = cfg.lag_maxlen ∧
        a = scoreWindows std bps cfg lead lag := by
  intro xs
  induction xs with
  | nil =>
    intro s a ha
    simp [detectFrom] at ha
  | cons x rest ih =>
    intro s a ha
    simp only [detectFrom, List.mem_append] at ha
    rcases ha with ha | ha
    · rcases hstep : (detectStep std bps cfg s x).2 with _ | a'
      · rw [hstep] at ha
        cases ha
      · rw [hstep] at ha
        simp only [List.mem_singleton] at ha
        subst ha
        exact detectStep_some hstep
    · exact ih _ _ ha

theorem detectStep_some_state {std : List ℚ → ℚ} {bps : List ℚ} {cfg : Config}
    {s : DState} {x : ℚ} {a : Analysis}
    (h : (detectStep std bps cfg s x).2 = some a) :
    a = scoreWindows std bps cfg (detectStep std bps cfg s x).1.lead
          (detectStep std bps cfg s x).1.lag ∧
    (detectStep std bps cfg s x).1.lead.length = cfg.lead_maxlen ∧
    (detectStep std bps cfg s x).1.lag.length = cfg.lag_maxlen := by
  by_cases hfull : s.lead.length = cfg.lead_maxlen
  · obtain ⟨lead, lag⟩ := s
    cases lead with
    | nil =>
      rw [detectStep_nilfull_eq std bps cfg x hfull] at h ⊢
      split at h
      · rename_i hcond
        cases Option.some_inj.mp h
        exact ⟨rfl, hcond.1, hcond.2⟩
      · exact Option.noConfusion h
    | cons hd t =>
      rw [detectStep_full_eq std bps cfg x hfull] at h ⊢
      split at h
      · rename_i hcond
        cases Option.some_inj.mp h
        exact ⟨rfl, hcond.1, hcond.2⟩
      · exact Option.noConfusion h
  · rw [detectStep_notfull_eq std bps cfg x hfull] at h ⊢
    split at h
    · rename_i hcond
      cases Option.some_inj.mp h
      exact ⟨rfl, hcond.1, hcond.2⟩
    · exact Option.noConfusion h

theorem detectStep_const_state (std : List ℚ → ℚ) (bps : List ℚ) (cfg : Config)
    (c : ℚ) (a0 b0 : Nat) :
    ∃ a1 b1, (detectStep std bps cfg
        ⟨List.replicate a0 c, List.replicate b0 c⟩ c).1
      = ⟨List.replicate a1 c, List.replicate b1 c⟩ := by
  by_cases hfull : (List.replicate a0 c).length = cfg.lead_maxlen
  · cases a0 with
    | zero =>
      rw [show (List.replicate 0 c : List ℚ) = [] from rfl] at hfull ⊢
      rw [detectStep_nilfull_eq std bps cfg c hfull]
      refine ⟨min 1 cfg.lead_maxlen, b0, ?_⟩
      have hda : dequeAppend cfg.lead_maxlen [] c
          = List.replicate (min 1 cfg.lead_maxlen) c := by
        have := dequeAppend_replicate cfg.lead_maxlen 0 c
        simpa using this
      rw [hda]
    | succ m =>
      rw [List.replicate_succ] at hfull ⊢
      rw [detectStep_full_eq std bps cfg c hfull]
      refine ⟨min (m + 1) cfg.lead_maxlen, min (b0 + 1) cfg.lag_maxlen, ?_⟩
      rw [dequeAppend_replicate, dequeAppend_replicate]
  · rw [detectStep_notfull_eq std bps cfg c hfull]
    refine ⟨min (a0 + 1) cfg.lead_maxlen, b0, ?_⟩
    simp only
    rw [dequeAppend_replicate]

theorem detectStep_const_emit {std : List ℚ → ℚ} {bps : List ℚ} {cfg : Config}
    {c : ℚ} {a0 b0 : Nat} {y : Analysis}
    (h : (detectStep std bps cfg
        ⟨List.replicate a0 c, List.replicate b0 c⟩ c).2 = some y) :
    y = scoreWindows std bps cfg (List.replicate cfg.lead_maxlen c)
          (List.replicate cfg.lag_maxlen c) := by
  obtain ⟨heq, hl, hg⟩ := detectStep_some_state h
  obtain ⟨a1, b1, hstate⟩ := detectStep_const_state std bps cfg c a0 b0
  rw [hstate] at heq hl hg
  simp only [List.length_replicate] at hl hg
  rw [heq]
  simp only
  rw [hl, hg]

theorem detectFrom_const (std : List ℚ → ℚ) (bps : List ℚ) (cfg : Config)
    (c : ℚ) :
    ∀ (n a0 b0 : Nat) (x : Analysis),
      x ∈ (detectFrom std bps cfg ⟨List.replicate a0 c, List.replicate b0 c⟩
            (List.replicate n c)).2 →
      x = scoreWindows std bps cfg (List.replicate cfg.lead_maxlen c)
            (List.replicate cfg.lag_maxlen c) := by
  intro n
  induction n with
  | zero =>
    intro a0 b0 x hx
    simp [detectFrom] at hx
  | succ n ih =>
    intro a0 b0 x hx
    rw [List.replicate_succ] at hx
    simp only [detectFrom, List.mem_append] at hx
    rcases hx with hx | hx
    · rcases hstep : (detectStep std bps cfg
          ⟨List.replicate a0 c, List.replicate b0 c⟩ c).2 with _ | y
      · rw [hstep] at hx
        cases hx
      · rw [hstep] at hx
        simp only [List.mem_singleton] at hx
        subst hx
        exact detectStep_const_emit hstep
    · obtain ⟨a1, b1, hstate⟩ := detectStep_const_state std bps cfg c a0 b0
      rw [hstate] at hx
      exact ih a1 b1 x hx

theorem detectFrom_length (std : List ℚ → ℚ) (bps : List ℚ) (cfg : Config)
    (hL : 0 < cfg.lead_maxlen) (hG : 0 < cfg.lag_maxlen) :
    ∀ (xs : List ℚ) (s : DState) (m : Nat),
      s.lead.length = min m cfg.lead_maxlen →
      s.lag.length = min (m - cfg.lead_maxlen) cfg.lag_maxlen →
      (detectFrom std bps cfg s xs).2.length =
        (m + xs.length + 1 - cfg.universe_size)
          - (m + 1 - cfg.universe_size) := by
  have hu : cfg.universe_size = cfg.lead_maxlen + cfg.lag_maxlen := rfl
  intro xs
  induction xs with
  | nil =>
    intro s m h1 h2
    simp only [detectFrom, List.length_nil]
    omega
  | cons x rest ih =>
    intro s m h1 h2
    simp only [detectFrom, List.length_append, List.length_cons]
    by_cases hfull : s.lead.length = cfg.lead_maxlen
    · obtain ⟨lead, lag⟩ := s
      cases lead with
      | nil =>
        exfalso
        simp only [List.length_nil] at hfull
        omega
      | cons hd t =>
        simp only [List.length_cons] at hfull h1
        simp only at h2
        rw [detectStep_full_eq std bps cfg x hfull]
        have hda1 := dequeAppend_length cfg.lead_maxlen t x
        have hda2 := dequeAppend_length cfg.lag_maxlen lag hd
        have h1' : (dequeAppend cfg.lead_maxlen t x).length
            = min (m + 1) cfg.lead_maxlen := by
          rw [hda1]; omega
        have h2' : (dequeAppend cfg.lag_maxlen lag hd).length
            = min ((m + 1) - cfg.lead_maxlen) cfg.lag_maxlen := by
          rw [hda2]; omega
        by_cases hemit : (dequeAppend cfg.lead_maxlen t x).length = cfg.lead_maxlen
            ∧ (dequeAppend cfg.lag_maxlen lag hd).length = cfg.lag_maxlen
        · rw [if_pos hemit]
          have hrec := ih ⟨dequeAppend cfg.lead_maxlen t x,
            dequeAppend cfg.lag_maxlen lag hd⟩ (m + 1) h1' h2'
          simp only at hrec
          rw [hrec]
          simp only [List.length_cons, List.length_nil]
          rw [h2'] at hemit
          omega
        · rw [if_neg hemit]
          have hrec := ih ⟨dequeAppend cfg.lead_maxlen t x,
            dequeAppend cfg.lag_maxlen lag hd⟩ (m + 1) h1' h2'
          simp only at hrec
          rw [hrec]
          simp only [List.length_nil]
          rw [h1', h2'] at hemit
          omega
    · rw [detectStep_notfull_eq std bps cfg x hfull]
      have hda1 := dequeAppend_length cfg.lead_maxlen s.lead x
      have hmlt : m < cfg.lead_maxlen := by
        rw [h1] at hfull
        omega
      have h1' : (dequeAppend cfg.lead_maxlen s.lead x).length
          = min (m + 1) cfg.lead_maxlen := by
        rw [hda1, h1]; omega
      have h2' : s.lag.length = min ((m + 1) - cfg.lead_maxlen) cfg.lag_maxlen := by
        rw [h2]
        congr 1
        omega
      have hnemit : ¬((dequeAppend cfg.lead_maxlen s.lead x).length = cfg.lead_maxlen
          ∧ s.lag.length = cfg.lag_maxlen) := by
        rintro ⟨hc1, hc2⟩
        rw [h2] at hc2
        omega
      rw [if_neg hnemit]
      have hrec := ih ⟨dequeAppend cfg.lead_maxlen s.lead x, s.lag⟩ (m + 1) h1' h2'
      simp only at hrec
      rw [hrec]
      simp only [List.length_nil]
      omega

/-! ### Pipeline shape facts -/

theorem catalog_af_length : (build_combinations af_alphabet).length = 16 := by
  decide

theorem windowTable_length (std : List ℚ → ℚ) (bps : List ℚ) (cfg : Config)
    (w : List ℚ) : (windowTable std bps cfg w).length = 16 := by
  unfold windowTable count_frequencies
  rw [List.length_map]
  exact catalog_af_length

theorem windowTable_ne_nil (std : List ℚ → ℚ) (bps : List ℚ) (cfg : Config)
    (w : List ℚ) : windowTable std bps cfg w ≠ [] := by
  intro h
  have hlen := windowTable_length std bps cfg w
  rw [h] at hlen
  simp at hlen

theorem windowTable_snd_nonneg (std : List ℚ → ℚ) (bps : List ℚ) (cfg : Config)
    (w : List ℚ) : ∀ p ∈ windowTable std bps cfg w, 0 ≤ p.2 := by
  unfold windowTable
  exact count_frequencies_snd_nonneg _ _

theorem scoreWindows_structure (std : List ℚ → ℚ) (bps : List ℚ) (cfg : Config)
    (lead lag : List ℚ) :
    ∃ M1 M2,
      build_bitmap (windowTable std bps cfg lead)
        (norm_factor (windowTable std bps cfg lead)
          (windowTable std bps cfg lag)) = .ok M1 ∧
      build_bitmap (windowTable std bps cfg lag)
        (norm_factor (windowTable std bps cfg lead)
          (windowTable std bps cfg lag)) = .ok M2 ∧
      scoreWindows std bps cfg lead lag =
        ⟨dist M1 M2 / ((shape0 M1 * shape1 M1 : Nat) : ℚ), M1, M2⟩ := by
  have h1 : (windowTable std bps cfg lead).length = 4 * 4 :=
    windowTable_length std bps cfg lead
  have h2 : (windowTable std bps cfg lag).length = 4 * 4 :=
    windowTable_length std bps cfg lag
  obtain ⟨M1, hM1, _⟩ := build_bitmap_spec h1 (by norm_num)
    (norm_factor (windowTable std bps cfg lead) (windowTable std bps cfg lag))
  obtain ⟨M2, hM2, _⟩ := build_bitmap_spec h2 (by norm_num)
    (norm_factor (windowTable std bps cfg lead) (windowTable std bps cfg lag))
  refine ⟨M1, M2, hM1, hM2, ?_⟩
  simp only [scoreWindows, hM1, hM2, Except.toOption, Option.getD_some]

theorem bitmap_shape {t : List (List Char × ℚ)} (hlen : t.length = 16)
    {nf : ℚ} {M : List (List ℚ)} (hM : build_bitmap t nf = .ok M) :
    M.length = 4 ∧ (∀ r ∈ M, r.length = 4) ∧ shape0 M = 4 ∧ shape1 M = 4 := by
  obtain ⟨M', hok, hMl, hrows, _⟩ := build_bitmap_spec
    (show t.length = 4 * 4 from hlen) (by norm_num) nf
  rw [hok] at hM
  cases Except.ok.inj hM
  refine ⟨hMl, hrows, hMl, ?_⟩
  unfold shape1
  cases M with
  | nil => simp at hMl
  | cons r rs =>
    simp only [List.headD_cons]
    exact hrows r (List.mem_cons_self ..)

theorem norm_factor_nonneg (t1 t2 : List (List Char × ℚ))
    (hval1 : ∀ p ∈ t1, 0 ≤ p.2) (hval2 : ∀ p ∈ t2, 0 ≤ p.2) :
    0 ≤ norm_factor t1 t2 := by
  unfold norm_factor
  by_cases hnil : t1.map Prod.snd ++ t2.map Prod.snd = []
  · rw [hnil]
    simp
  · have hmem := max?_getD_mem hnil 0
    rcases List.mem_append.mp hmem with hm | hm
    · obtain ⟨p, hp, hpv⟩ := List.mem_map.mp hm
      rw [← hpv]
      exact hval1 p hp
    · obtain ⟨p, hp, hpv⟩ := List.mem_map.mp hm
      rw [← hpv]
      exact hval2 p hp

theorem le_norm_factor_left (t1 t2 : List (List Char × ℚ)) :
    ∀ p ∈ t1, p.2 ≤ norm_factor t1 t2 := by
  intro p hp
  unfold norm_factor
  apply mem_le_max?_getD
  exact List.mem_append.mpr (Or.inl (List.mem_map.mpr ⟨p, hp, rfl⟩))

theorem le_norm_factor_right (t1 t2 : List (List Char × ℚ)) :
    ∀ p ∈ t2, p.2 ≤ norm_factor t1 t2 := by
  intro p hp
  unfold norm_factor
  apply mem_le_max?_getD
  exact List.mem_append.mpr (Or.inr (List.mem_map.mpr ⟨p, hp, rfl⟩))

theorem scaleVal_bounds {t : List (List Char × ℚ)} {nf : ℚ}
    (hval : ∀ p ∈ t, 0 ≤ p.2) (hub : ∀ p ∈ t, p.2 ≤ nf) (hnf : 0 ≤ nf)
    (key : List Char) :
    0 ≤ scaleVal t nf key ∧ scaleVal t nf key ≤ 1 := by
  unfold scaleVal
  cases hlk : t.lookup key with
  | none =>
    simp only [Option.getD_none]
    split
    · norm_num
    · norm_num
  | some v =>
    simp only [Option.getD_some]
    have hv0 : 0 ≤ v := hval _ (lookup_mem hlk)
    have hvle : v ≤ nf := hub _ (lookup_mem hlk)
    split
    · rename_i hnf0
      have hnfpos : 0 < nf := lt_of_le_of_ne hnf (Ne.symm hnf0)
      exact ⟨div_nonneg hv0 hnfpos.le, (div_le_one hnfpos).mpr hvle⟩
    · rename_i hnf0
      push_neg at hnf0
      rw [hnf0] at hvle
      exact ⟨hv0, hvle.trans (by norm_num)⟩

theorem bitmap_cells_bounds {t : List (List Char × ℚ)} {nf : ℚ}
    (hlen : t.length = 16)
    (hval : ∀ p ∈ t, 0 ≤ p.2) (hub : ∀ p ∈ t, p.2 ≤ nf) (hnf : 0 ≤ nf)
    {M : List (List ℚ)}
    (hM : build_bitmap t nf = .ok M) :
    ∀ r ∈ M, ∀ v ∈ r, 0 ≤ v ∧ v ≤ 1 := by
  obtain ⟨M', hok, hMl, hrows, hcells⟩ := build_bitmap_spec
    (show t.length = 4 * 4 from hlen) (by norm_num) nf
  rw [hok] at hM
  cases Except.ok.inj hM
  intro r hr v hv
  obtain ⟨a, ha, har⟩ := List.getElem_of_mem hr
  obtain ⟨b, hb, hbv⟩ := List.getElem_of_mem hv
  have ha4 : a < 4 := by rw [hMl] at ha; exact ha
  have hb4 : b < 4 := by
    rw [hrows r hr] at hb
    exact hb
  have hvalx : v = (M.getD a []).getD b 0 := by
    have h1 : M.getD a [] = r := by
      rw [List.getD_eq_getElem?_getD, List.getElem?_eq_getElem ha, Option.getD_some, har]
    rw [h1, List.getD_eq_getElem?_getD, List.getElem?_eq_getElem hb, Option.getD_some, hbv]
  rw [hvalx, hcells a b ha4 hb4]
  exact scaleVal_bounds hval hub hnf _

theorem zipWith_sq_sum_le {r s : List ℚ}
    (hr : ∀ x ∈ r, 0 ≤ x ∧ x ≤ 1) (hs : ∀ x ∈ s, 0 ≤ x ∧ x ≤ 1) :
    (List.zipWith (fun x y => (x - y) ^ 2) r s).sum ≤ (r.length : ℚ) := by
  induction r generalizing s with
  | nil => simp
  | cons x xs ih =>
    cases s with
    | nil =>
      simp only [List.zipWith_nil_right, List.sum_nil, List.length_cons]
      positivity
    | cons y ys =>
      rw [List.zipWith_cons_cons, List.sum_cons, List.length_cons]
      have hx := hr x (List.mem_cons_self ..)
      have hy := hs y (List.mem_cons_self ..)
      have h1 : (x - y) ^ 2 ≤ 1 := by nlinarith [hx.1, hx.2, hy.1, hy.2]
      have h2 := ih (fun z hz => hr z (List.mem_cons_of_mem _ hz))
        (fun z hz => hs z (List.mem_cons_of_mem _ hz))
      push_cast
      linarith

theorem dist_le_card {n : Nat} {a b : List (List ℚ)}
    (hra : ∀ r ∈ a, r.length = n)
    (hca : ∀ r ∈ a, ∀ x ∈ r, 0 ≤ x ∧ x ≤ 1)
    (hcb : ∀ r ∈ b, ∀ x ∈ r, 0 ≤ x ∧ x ≤ 1) :
    dist a b ≤ ((a.length * n : ℕ) : ℚ) := by
  unfold dist
  induction a generalizing b with
  | nil => simp
  | cons r rs ih =>
    cases b with
    | nil =>
      simp only [List.zipWith_nil_right, List.sum_nil]
      positivity
    | cons s ss =>
      rw [List.zipWith_cons_cons, List.sum_cons, List.length_cons]
      have h1 : (List.zipWith (fun x y => (x - y) ^ 2) r s).sum ≤ (r.length : ℚ) :=
        zipWith_sq_sum_le (hca r (List.mem_cons_self ..)) (hcb s (List.mem_cons_self ..))
      have h2 := ih (fun r' hr' => hra r' (List.mem_cons_of_mem _ hr'))
        (fun r' hr' => hca r' (List.mem_cons_of_mem _ hr'))
        (fun r' hr' => hcb r' (List.mem_cons_of_mem _ hr'))
      have h3 : r.length = n := hra r (List.mem_cons_self ..)
      rw [h3] at h1
      push_cast at h2 ⊢
      have : ((rs.length : ℚ) + 1) * n = rs.length * n + n := by ring
      rw [this]
      linarith

theorem scoreWindows_bounds (std : List ℚ → ℚ) (bps : List ℚ) (cfg : Config)
    (lead lag : List ℚ) :
    (∀ r ∈ (scoreWindows std bps cfg lead lag).bitmp1, ∀ v ∈ r, 0 ≤ v ∧ v ≤ 1) ∧
    (∀ r ∈ (scoreWindows std bps cfg lead lag).bitmp2, ∀ v ∈ r, 0 ≤ v ∧ v ≤ 1) ∧
    0 ≤ (scoreWindows std bps cfg lead lag).score ∧
    (scoreWindows std bps cfg lead lag).score ≤ 1 := by
  obtain ⟨M1, M2, hM1, hM2, heq⟩ := scoreWindows_structure std bps cfg lead lag
  have hval1 := windowTable_snd_nonneg std bps cfg lead
  have hval2 := windowTable_snd_nonneg std bps cfg lag
  have hnf : 0 ≤ norm_factor (windowTable std bps cfg lead)
      (windowTable std bps cfg lag) := norm_factor_nonneg _ _ hval1 hval2
  have hc1 : ∀ r ∈ M1, ∀ v ∈ r, 0 ≤ v ∧ v ≤ 1 :=
    bitmap_cells_bounds (windowTable_length std bps cfg lead) hval1
      (le_norm_factor_left _ _) hnf hM1
  have hc2 : ∀ r ∈ M2, ∀ v ∈ r, 0 ≤ v ∧ v ≤ 1 :=
    bitmap_cells_bounds (windowTable_length std bps cfg lag) hval2
      (le_norm_factor_right _ _) hnf hM2
  have hsh1 := bitmap_shape (windowTable_length std bps cfg lead) hM1
  have hdistle : dist M1 M2 ≤ ((M1.length * 4 : Nat) : ℚ) :=
    dist_le_card hsh1.2.1 hc1 hc2
  rw [hsh1.1] at hdistle
  have hdist0 := dist_nonneg M1 M2
  rw [heq]
  refine ⟨hc1, hc2, ?_, ?_⟩
  · simp only
    rw [hsh1.2.2.1, hsh1.2.2.2]
    positivity
  · simp only
    rw [hsh1.2.2.1, hsh1.2.2.2]
    rw [div_le_one (by norm_num)]
    calc dist M1 M2 ≤ ((4 * 4 : Nat) : ℚ) := hdistle
      _ = ((4 * 4 : Nat) : ℚ) := rfl
      _ = (16 : ℚ) := by norm_num

/-! ### Discretizer lemmas -/

theorem bucketIdx_le (bps : List ℚ) (m : ℚ) : bucketIdx bps m ≤ bps.length := by
  induction bps with
  | nil => simp [bucketIdx]
  | cons b rest ih =>
    unfold bucketIdx
    split
    · simp
    · simp only [List.length_cons]
      omega

theorem letters_getD_mem_take {idx alphbt : Nat} (h : idx < alphbt)
    (h52 : alphbt ≤ 52) :
    ascii_letters.getD idx 'a' ∈ ascii_letters.take alphbt := by
  have hl : ascii_letters.length = 52 := rfl
  have hidx : idx < ascii_letters.length := by omega
  rw [List.getD_eq_getElem?_getD, List.getElem?_eq_getElem hidx, Option.getD_some]
  have htl : idx < (ascii_letters.take alphbt).length := by
    rw [List.length_take]
    omega
  have hsame : (ascii_letters.take alphbt).get ⟨idx, htl⟩
      = ascii_letters.get ⟨idx, hidx⟩ :=
    List.getElem_take ..
  have hmem : (ascii_letters.take alphbt).get ⟨idx, htl⟩
      ∈ ascii_letters.take alphbt := List.get_mem ..
  rw [hsame] at hmem
  exact hmem

theorem mapM_id_somes : ∀ {l : List (Option ℚ)}, (∀ x ∈ l, x.isSome) →
    ∃ ms, l.mapM id = some ms ∧ ms.length = l.length := by
  intro l
  induction l with
  | nil => exact fun _ => ⟨[], rfl, rfl⟩
  | cons x xs ih =>
    intro h
    obtain ⟨v, hv⟩ := Option.isSome_iff_exists.mp (h x (List.mem_cons_self ..))
    obtain ⟨ms, hms, hlen⟩ := ih (fun y hy => h y (List.mem_cons_of_mem _ hy))
    refine ⟨v :: ms, ?_, by simp [hlen]⟩
    rw [List.mapM_cons, hv, hms]
    rfl

theorem sax_scaled_length (std : List ℚ → ℚ) (data : List ℚ) :
    (sax_scaled std data).length = data.length := by
  simp only [sax_scaled]
  split
  · rw [List.length_map, List.length_map]
  · rw [List.length_map]

theorem sax_sections_length (std : List ℚ → ℚ) (data : List ℚ) (ws : Nat) :
    (sax_sections std data ws).length = ws := by
  simp only [sax_sections]
  rw [List.length_map, List.length_range]

theorem sax_sections_piece_length (std : List ℚ → ℚ) {data : List ℚ}
    {ws k : Nat} (hlen : data.length = k * ws) (hws : 0 < ws) :
    ∀ p ∈ sax_sections std data ws, p.length = k := by
  have hdiv : data.length / ws = k := by
    rw [hlen]
    exact Nat.mul_div_cancel k hws
  intro p hp
  simp only [sax_sections, hdiv] at hp
  obtain ⟨i, hi, rfl⟩ := List.mem_map.mp hp
  rw [List.mem_range] at hi
  rw [List.length_take, List.length_drop, sax_scaled_length, hlen]
  have hik : i * k + k ≤ k * ws := by
    calc i * k + k = (i + 1) * k := (Nat.succ_mul i k).symm
      _ ≤ ws * k := Nat.mul_le_mul_right k (by omega)
      _ = k * ws := Nat.mul_comm ws k
  omega

theorem sax_ok (std : List ℚ → ℚ) (bps : List ℚ) {data : List ℚ} {ws k : Nat}
    (hlen : data.length = k * ws) (hk : 1 ≤ k) (hws : 0 < ws)
    (h52 : bps.length + 1 ≤ 52) :
    ∃ w, sax std bps data ws = .ok w ∧ w.length = ws ∧
      ∀ ch ∈ w, ch ∈ ascii_letters.take (bps.length + 1) := by
  have hws0 : ¬ws = 0 := by omega
  have hmod : ¬data.length % ws ≠ 0 := by
    rw [hlen]
    simp [Nat.mul_mod_left]
  have hallsome : ∀ x ∈ (sax_sections std data ws).map listMean?, x.isSome := by
    intro x hx
    obtain ⟨p, hp, rfl⟩ := List.mem_map.mp hx
    have hplen := sax_sections_piece_length std hlen hws p hp
    unfold listMean?
    have hemp : p.isEmpty = false := by
      cases hemp : p.isEmpty
      · rfl
      · exfalso
        rw [List.isEmpty_iff] at hemp
        rw [hemp] at hplen
        simp at hplen
        omega
    rw [hemp]
    simp
  obtain ⟨ms, hms, hmslen⟩ := mapM_id_somes hallsome
  unfold sax
  rw [if_neg hws0, if_neg hmod, hms]
  refine ⟨_, rfl, ?_, ?_⟩
  · rw [List.length_map, hmslen, List.length_map, sax_sections_length]
  · intro ch hch
    obtain ⟨m, _, rfl⟩ := List.mem_map.mp hch
    have hb := bucketIdx_le bps m
    exact letters_getD_mem_take (by omega) h52

/-! ### Claim theorems -/

/-- C1: on a freshly constructed detector with positive `word_size`,
`window_factor`, `lead_window_factor` and `lag_window_factor`, `detect`
produces zero `Analysis` records for the first `universe_size - 1`
datapoints and exactly one per datapoint from the `universe_size`-th on
(the output count for any input is `length + 1 - universe_size`, truncated
at zero — so once both windows are full every subsequent datapoint emits),
where `universe_size = (lead_window_factor + lag_window_factor) *
window_factor * word_size`. -/
theorem C1_warmup_then_one_analysis_per_point (std : List ℚ → ℚ)
    (bps : List ℚ) (cfg : Config) (xs : List ℚ)
    (hws : 0 < cfg.word_size) (hwf : 0 < cfg.window_factor)
    (hlf : 0 < cfg.lead_window_factor) (hgf : 0 < cfg.lag_window_factor) :
    (detect std bps cfg xs).2.length = xs.length + 1 - cfg.universe_size ∧
    cfg.universe_size = (cfg.lead_window_factor + cfg.lag_window_factor)
        * cfg.window_factor * cfg.word_size := by
  have hL : 0 < cfg.lead_maxlen := by
    unfold Config.lead_maxlen Config.window_size
    positivity
  have hG : 0 < cfg.lag_maxlen := by
    unfold Config.lag_maxlen Config.window_size
    positivity
  constructor
  · have hlen := detectFrom_length std bps cfg hL hG xs initState 0
      (by simp [initState]) (by simp [initState])
    unfold detect
    rw [hlen]
    have hu : 0 < cfg.universe_size := by
      unfold Config.universe_size
      omega
    omega
  · unfold Config.universe_size Config.lead_maxlen Config.lag_maxlen Config.window_size
    ring

/-- Witness for C1: fresh detector with all parameters 1
(`universe_size = 2`) and three datapoints — exactly 2 analyses. -/
theorem C1_witness :
    (detect stdZ bpsStd ⟨1, 1, 1, 1⟩ [(1 : ℚ), 2, 3]).2.length
        = [(1 : ℚ), 2, 3].length + 1 - Config.universe_size ⟨1, 1, 1, 1⟩ ∧
    (detect stdZ bpsStd ⟨1, 1, 1, 1⟩ [(1 : ℚ), 2, 3]).2.length = 2 :=
  ⟨(C1_warmup_then_one_analysis_per_point stdZ bpsStd ⟨1, 1, 1, 1⟩
      [(1 : ℚ), 2, 3] (by decide) (by decide) (by decide) (by decide)).1,
   by rfl⟩

/-- C2: the normalization factor computed by the scoring step of `detect`
(`max(lead_freqs.values() + lag_freqs.values())` under Python 2 list
concatenation, embedded as `norm_factor`, the factor `scoreWindows` passes
to both `build_bitmap` calls) equals the spec's reading: the maximum value
across the set union of the two frequency tables' values
(`spec_norm_factor`). -/
theorem C2_norm_factor_is_max_over_union (std : List ℚ → ℚ) (bps : List ℚ)
    (cfg : Config) (lead lag : List ℚ) :
    norm_factor (windowTable std bps cfg lead) (windowTable std bps cfg lag)
      = spec_norm_factor (windowTable std bps cfg lead)
          (windowTable std bps cfg lag) :=
  norm_factor_eq_spec _ _ (Or.inl (windowTable_ne_nil std bps cfg lead))

/-- C3: when the key count is a perfect square, `_build_bitmap` with factor
`0` succeeds and each cell holds the raw count of the key placed there
(no division is attempted), and with any nonzero factor it succeeds with
every cell equal to the corresponding count divided by that factor. -/
theorem C3_zero_factor_keeps_raw_counts (freqs : List (List Char × ℚ))
    (nf : ℚ) (n : Nat) (hlen : freqs.length = n * n) (hn : 0 < n) :
    (∃ M, build_bitmap freqs 0 = .ok M ∧
       ∀ a b, a < n → b < n → (M.getD a []).getD b 0
         = (freqs.lookup
             ((sortKeys (freqs.map Prod.fst)).getD (a * n + b) [])).getD 0) ∧
    (nf ≠ 0 → ∃ M, build_bitmap freqs nf = .ok M ∧
       ∀ a b, a < n → b < n → (M.getD a []).getD b 0
         = (freqs.lookup
             ((sortKeys (freqs.map Prod.fst)).getD (a * n + b) [])).getD 0 / nf) := by
  constructor
  · obtain ⟨M, hok, _, _, hcells⟩ := build_bitmap_spec hlen hn 0
    refine ⟨M, hok, fun a b ha hb => ?_⟩
    rw [hcells a b ha hb]
    unfold scaleVal
    rw [if_neg (fun hc => hc rfl)]
  · intro hnf
    obtain ⟨M, hok, _, _, hcells⟩ := build_bitmap_spec hlen hn nf
    refine ⟨M, hok, fun a b ha hb => ?_⟩
    rw [hcells a b ha hb]
    unfold scaleVal
    rw [if_pos hnf]

/-- Witness for C3: a 4-key table; with factor 0 the bitmap holds the raw
counts 1..4 in sorted-key row-major order. -/
theorem C3_witness :
    (∃ M, build_bitmap [(['a'], (1 : ℚ)), (['b'], 2), (['c'], 3), (['d'], 4)] 0
        = .ok M ∧
      ∀ a b, a < 2 → b < 2 → (M.getD a []).getD b 0
        = ([(['a'], (1 : ℚ)), (['b'], 2), (['c'], 3), (['d'], 4)].lookup
            ((sortKeys ([(['a'], (1 : ℚ)), (['b'], 2), (['c'], 3),
              (['d'], 4)].map Prod.fst)).getD (a * 2 + b) [])).getD 0) ∧
    build_bitmap [(['a'], (1 : ℚ)), (['b'], 2), (['c'], 3), (['d'], 4)] 0
        = .ok [[1, 2], [3, 4]] :=
  ⟨(C3_zero_factor_keeps_raw_counts
      [(['a'], (1 : ℚ)), (['b'], 2), (['c'], 3), (['d'], 4)] 5 2
      (by rfl) (by decide)).1,
   by rfl⟩

/-- C7: bitmap construction fails with `InvalidInput` exactly when the key
count is not a perfect square; for a key count `n * n` it succeeds and
places the table's values, in lexicographically sorted key order, row-major
into an `n × n` matrix (cell `(a, b)` holds the scaled value of sorted key
number `a·n + b`; `sortKeys` is a lex-sorted permutation of the keys). -/
theorem C7_square_check_and_row_major_placement
    (freqs : List (List Char × ℚ)) (nf : ℚ) :
    ((¬ ∃ n, freqs.length = n * n) →
      build_bitmap freqs nf = .error .invalidInput) ∧
    (∀ n, freqs.length = n * n →
      ∃ M, build_bitmap freqs nf = .ok M ∧
        (sortKeys (freqs.map Prod.fst)).Perm (freqs.map Prod.fst) ∧
        (sortKeys (freqs.map Prod.fst)).Pairwise (fun a b => lexLe a b = true) ∧
        ∀ a b, a < n → b < n → (M.getD a []).getD b 0
          = scaleVal freqs nf
              ((sortKeys (freqs.map Prod.fst)).getD (a * n + b) [])) := by
  constructor
  · intro hns
    apply build_bitmap_error
    intro hc
    exact hns ⟨Nat.sqrt freqs.length, hc.symm⟩
  · intro n hlen
    rcases Nat.eq_zero_or_pos n with rfl | hn
    · have hfr : freqs = [] := by
        rw [← List.length_eq_zero]
        rw [hlen]
      subst hfr
      refine ⟨[], by rfl, by simp [sortKeys], by simp [sortKeys], ?_⟩
      intro a b ha hb
      omega
    · obtain ⟨M, hok, _, _, hcells⟩ := build_bitmap_spec hlen hn nf
      exact ⟨M, hok, sortKeys_perm _, sortKeys_pairwise _, hcells⟩

/-- Witness for C7: a 5-key table fails with `InvalidInput` (via the
theorem's first part, 5 is not a perfect square), and a 4-key table builds
the 2×2 matrix of its values in sorted-key order. -/
theorem C7_witness :
    build_bitmap [(['a'], (1 : ℚ)), (['b'], 2), (['c'], 3), (['d'], 4),
        (['e'], 5)] 7 = .error .invalidInput ∧
    build_bitmap [(['a'], (1 : ℚ)), (['b'], 2), (['c'], 3), (['d'], 4)] 0
        = .ok [[1, 2], [3, 4]] := by
  constructor
  · apply (C7_square_check_and_row_major_placement _ 7).1
    rintro ⟨n, hn⟩
    simp only [List.length_cons, List.length_nil] at hn
    rcases Nat.lt_or_ge n 3 with h | h
    · interval_cases n <;> omega
    · have h9 := Nat.mul_le_mul h h
      omega
  · rfl

/-- C8: for an alphabet of `n` distinct symbols the subword-length-2
catalog has exactly `n * n` elements (the `n·(n-1)` ordered pairs of
distinct symbols plus the `n` doubled symbols); in particular 16 keys for
the default alphabet `'abcd'`. -/
theorem C8_catalog_size (alphabet : List Char) (hnd : alphabet.Nodup) :
    (build_combinations alphabet).length
        = alphabet.length * alphabet.length ∧
    (build_combinations af_alphabet).length = 16 :=
  ⟨build_combinations_length alphabet hnd, catalog_af_length⟩

/-- Witness for C8: the default alphabet `'abcd'` is duplicate-free and its
catalog has `4 * 4 = 16` keys. -/
theorem C8_witness :
    (build_combinations ['a', 'b', 'c', 'd']).length = 4 * 4 ∧
    (build_combinations ['a', 'b', 'c', 'd']).length = 16 :=
  ⟨(C8_catalog_size ['a', 'b', 'c', 'd'] (by decide)).1, by rfl⟩

/-- C10: for subword length 2 the catalog is exactly the set of all
length-2 strings over the alphabet, and consequently, for any word list
whose characters all come from the alphabet, the frequency table's values
sum to the total number of length-2 sliding positions,
`Σ_w max(length w - 1, 0)` (natural subtraction). -/
theorem C10_catalog_pairs_and_value_total (alphabet : List Char)
    (words : List (List Char)) (hw : ∀ w ∈ words, ∀ c ∈ w, c ∈ alphabet) :
    (build_combinations alphabet).toFinset
        = (alphabet.toFinset ×ˢ alphabet.toFinset).image
            (fun p : Char × Char => [p.1, p.2]) ∧
    ((count_frequencies words alphabet).map Prod.snd).sum
        = (((words.map (fun w => w.length - 1)).sum : ℕ) : ℚ) :=
  ⟨build_combinations_toFinset alphabet, count_frequencies_values_total hw⟩

/-- Witness for C10: the word `"aba"` over the default alphabet has
`3 - 1 = 2` sliding bigram positions, and the table's values sum to 2. -/
theorem C10_witness :
    (build_combinations af_alphabet).toFinset
        = (af_alphabet.toFinset ×ˢ af_alphabet.toFinset).image
            (fun p : Char × Char => [p.1, p.2]) ∧
    ((count_frequencies [['a', 'b', 'a']] af_alphabet).map Prod.snd).sum = 2 := by
  have happ := C10_catalog_pairs_and_value_total af_alphabet [['a', 'b', 'a']]
    (by decide)
  refine ⟨happ.1, ?_⟩
  rw [happ.2]
  norm_num

/-! ### Helpers for the remaining claims -/

theorem mem_of_head? {α : Type} {l : List α} {a : α} (h : l.head? = some a) :
    a ∈ l := by
  cases l with
  | nil => cases h
  | cons x xs =>
    rw [List.head?_cons] at h
    rw [Option.some_inj.mp h]
    exact List.mem_cons_self ..

theorem row_sq_sum_nonneg (r s : List ℚ) :
    0 ≤ (List.zipWith (fun x y => (x - y) ^ 2) r s).sum := by
  induction r generalizing s with
  | nil => simp
  | cons x xs ih =>
    cases s with
    | nil => simp
    | cons y ys =>
      rw [List.zipWith_cons_cons, List.sum_cons]
      have := ih ys
      positivity

theorem row_cell_sq_le : ∀ (b : Nat) (r s : List ℚ), b < r.length → b < s.length →
    (r.getD b 0 - s.getD b 0) ^ 2 ≤ (List.zipWith (fun x y => (x - y) ^ 2) r s).sum := by
  intro b
  induction b with
  | zero =>
    intro r s hr hs
    cases r with
    | nil => simp at hr
    | cons x xs =>
      cases s with
      | nil => simp at hs
      | cons y ys =>
        rw [List.zipWith_cons_cons, List.sum_cons, List.getD_cons_zero,
          List.getD_cons_zero]
        have := row_sq_sum_nonneg xs ys
        linarith
  | succ b ih =>
    intro r s hr hs
    cases r with
    | nil => simp at hr
    | cons x xs =>
      cases s with
      | nil => simp at hs
      | cons y ys =>
        rw [List.zipWith_cons_cons, List.sum_cons, List.getD_cons_succ,
          List.getD_cons_succ]
        have h1 := ih xs ys (by simpa using hr) (by simpa using hs)
        have h2 : (0:ℚ) ≤ (x - y) ^ 2 := by positivity
        linarith

theorem dist_cons_cons (r s : List ℚ) (A B : List (List ℚ)) :
    dist (r :: A) (s :: B)
      = (List.zipWith (fun x y => (x - y) ^ 2) r s).sum + dist A B := by
  unfold dist
  rw [List.zipWith_cons_cons, List.sum_cons]

theorem cell_sq_le_dist : ∀ (a : Nat) (A B : List (List ℚ)),
    a < A.length → a < B.length →
    ∀ b : Nat, b < (A.getD a []).length → b < (B.getD a []).length →
    ((A.getD a []).getD b 0 - (B.getD a []).getD b 0) ^ 2 ≤ dist A B := by
  intro a
  induction a with
  | zero =>
    intro A B hA hB b hbA hbB
    cases A with
    | nil => simp at hA
    | cons rA A' =>
      cases B with
      | nil => simp at hB
      | cons rB B' =>
        rw [dist_cons_cons]
        simp only [List.getD_cons_zero] at hbA hbB ⊢
        have h1 := row_cell_sq_le b rA rB hbA hbB
        have h2 := dist_nonneg A' B'
        linarith
  | succ a ih =>
    intro A B hA hB b hbA hbB
    cases A with
    | nil => simp at hA
    | cons rA A' =>
      cases B with
      | nil => simp at hB
      | cons rB B' =>
        rw [dist_cons_cons]
        simp only [List.getD_cons_succ] at hbA hbB ⊢
        have h1 := ih A' B' (by simpa using hA) (by simpa using hB) b hbA hbB
        have h2 := row_sq_sum_nonneg rA rB
        linarith

theorem count_substr_le (w k : List Char) :
    count_substr w k ≤ w.length + 1 - k.length := by
  unfold count_substr
  calc ((List.range (w.length + 1 - k.length)).filter
        (fun i => (w.drop i).take k.length == k)).length
      ≤ (List.range (w.length + 1 - k.length)).length := List.length_filter_le ..
    _ = w.length + 1 - k.length := List.length_range ..

theorem count_frequencies_af_length (words : List (List Char)) :
    (count_frequencies words af_alphabet).length = 16 := by
  unfold count_frequencies
  rw [List.length_map]
  exact catalog_af_length

/-! ### Concrete evaluation of one scoring step on constant data -/

theorem sax_const55 : sax stdZ bpsStd [(5 : ℚ), 5] 2 = .ok ['c', 'c'] := by
  have hmean : listMean? [(0 : ℚ)] = some 0 := by
    norm_num [listMean?, listMean]
  have hbucket : bucketIdx bpsStd 0 = 2 := by
    norm_num [bucketIdx, bpsStd]
  have hscaled : sax_scaled stdZ [(5 : ℚ), 5] = [0, 0] := by
    norm_num [sax_scaled, listMean, stdZ]
  have hsec : sax_sections stdZ [(5 : ℚ), 5] 2 = [[0], [0]] := by
    simp [sax_sections, hscaled, List.range_succ]
  simp only [sax, hsec]
  rw [if_neg (show ¬(2 = 0) by norm_num),
    if_neg (show ¬([(5 : ℚ), 5].length % 2 ≠ 0) by norm_num)]
  rw [List.map_cons, List.map_cons, List.map_nil, hmean]
  rw [List.mapM_cons, List.mapM_cons, List.mapM_nil]
  simp [hbucket, ascii_letters]

theorem words_lead55 : get_words stdZ bpsStd [(5 : ℚ), 5] 2 2 = .ok [['c', 'c']] := by
  have hslices : (List.range ([(5 : ℚ), 5].length / 2)).map
      (fun i => ([(5 : ℚ), 5].drop (i * 2)).take 2) = [[(5 : ℚ), 5]] := rfl
  simp only [get_words]
  rw [if_neg (show ¬(2 = 0) by norm_num), hslices]
  simp only [List.mapM_cons, List.mapM_nil, sax_const55]
  rfl

theorem words_lag55 : get_words stdZ bpsStd [(5 : ℚ), 5, 5, 5] 2 2
    = .ok [['c', 'c'], ['c', 'c']] := by
  have hslices : (List.range ([(5 : ℚ), 5, 5, 5].length / 2)).map
      (fun i => ([(5 : ℚ), 5, 5, 5].drop (i * 2)).take 2)
      = [[(5 : ℚ), 5], [(5 : ℚ), 5]] := rfl
  simp only [get_words]
  rw [if_neg (show ¬(2 = 0) by norm_num), hslices]
  simp only [List.mapM_cons, List.mapM_nil, sax_const55]
  rfl

theorem wT_lead55 : windowTable stdZ bpsStd ⟨2, 1, 1, 2⟩ [(5 : ℚ), 5]
    = count_frequencies [['c', 'c']] af_alphabet := by
  unfold windowTable
  rw [show Config.window_size ⟨2, 1, 1, 2⟩ = 2 from rfl,
    show Config.word_size ⟨2, 1, 1, 2⟩ = 2 from rfl, words_lead55]
  rfl

theorem wT_lag55 : windowTable stdZ bpsStd ⟨2, 1, 1, 2⟩ [(5 : ℚ), 5, 5, 5]
    = count_frequencies [['c', 'c'], ['c', 'c']] af_alphabet := by
  unfold windowTable
  rw [show Config.window_size ⟨2, 1, 1, 2⟩ = 2 from rfl,
    show Config.word_size ⟨2, 1, 1, 2⟩ = 2 from rfl, words_lag55]
  rfl

theorem nf_const55 :
    norm_factor (count_frequencies [['c', 'c']] af_alphabet)
      (count_frequencies [['c', 'c'], ['c', 'c']] af_alphabet) = 2 := by
  have hkeylen : ∀ c ∈ build_combinations af_alphabet, c.length = 2 := by
    intro c hc
    obtain ⟨x, _, y, _, rfl⟩ := mem_build_combinations.mp hc
    rfl
  have hcount1 : ∀ c ∈ build_combinations af_alphabet,
      count_substr ['c', 'c'] c ≤ 1 := by
    intro c hc
    have hb := count_substr_le ['c', 'c'] c
    rw [hkeylen c hc, show (['c', 'c'] : List Char).length = 2 from rfl] at hb
    omega
  have hvle : ∀ v ∈ (count_frequencies [['c', 'c']] af_alphabet).map Prod.snd
      ++ (count_frequencies [['c', 'c'], ['c', 'c']] af_alphabet).map Prod.snd,
      v ≤ 2 := by
    intro v hv
    rcases List.mem_append.mp hv with hm | hm
    · obtain ⟨p, hp, rfl⟩ := List.mem_map.mp hm
      obtain ⟨c, hc, rfl⟩ := List.mem_map.mp hp
      simp only [foldl_add_count, List.map_cons, List.map_nil, List.sum_cons,
        List.sum_nil]
      have h1 : (count_substr ['c', 'c'] c : ℚ) ≤ 1 := by
        exact_mod_cast hcount1 c hc
      push_cast
      linarith
    · obtain ⟨p, hp, rfl⟩ := List.mem_map.mp hm
      obtain ⟨c, hc, rfl⟩ := List.mem_map.mp hp
      simp only [foldl_add_count, List.map_cons, List.map_nil, List.sum_cons,
        List.sum_nil]
      have h1 : (count_substr ['c', 'c'] c : ℚ) ≤ 1 := by
        exact_mod_cast hcount1 c hc
      push_cast
      linarith
  have h2mem : (2 : ℚ) ∈ (count_frequencies [['c', 'c'], ['c', 'c']]
      af_alphabet).map Prod.snd := by
    apply List.mem_map.mpr
    refine ⟨(['c', 'c'], 2), ?_, rfl⟩
    have hlk := count_frequencies_lookup [['c', 'c'], ['c', 'c']] af_alphabet
      (show ['c', 'c'] ∈ build_combinations af_alphabet by decide)
    have hval : ((([['c', 'c'], ['c', 'c']].map
        (fun w => count_substr w ['c', 'c'])).sum : ℕ) : ℚ) = 2 := by
      rw [show ([['c', 'c'], ['c', 'c']].map
        (fun w => count_substr w ['c', 'c'])).sum = 2 from rfl]
      norm_num
    rw [hval] at hlk
    exact lookup_mem hlk
  have hne : (count_frequencies [['c', 'c']] af_alphabet).map Prod.snd
      ++ (count_frequencies [['c', 'c'], ['c', 'c']] af_alphabet).map Prod.snd
      ≠ [] := by
    intro hc
    rw [List.append_eq_nil] at hc
    have hlen1 := congrArg List.length hc.1
    rw [List.length_map, count_frequencies_af_length] at hlen1
    simp at hlen1
  unfold norm_factor
  apply le_antisymm
  · exact hvle _ (max?_getD_mem hne 0)
  · exact mem_le_max?_getD (List.mem_append.mpr (Or.inr h2mem)) 0

theorem cell_lead55 :
    scaleVal (count_frequencies [['c', 'c']] af_alphabet) 2 ['c', 'c'] = 1 / 2 := by
  unfold scaleVal
  rw [count_frequencies_lookup [['c', 'c']] af_alphabet
    (show ['c', 'c'] ∈ build_combinations af_alphabet by decide)]
  rw [show ([['c', 'c']].map (fun w => count_substr w ['c', 'c'])).sum = 1 from rfl]
  rw [if_pos (show (2 : ℚ) ≠ 0 by norm_num)]
  norm_num

theorem cell_lag55 :
    scaleVal (count_frequencies [['c', 'c'], ['c', 'c']] af_alphabet) 2
      ['c', 'c'] = 1 := by
  unfold scaleVal
  rw [count_frequencies_lookup [['c', 'c'], ['c', 'c']] af_alphabet
    (show ['c', 'c'] ∈ build_combinations af_alphabet by decide)]
  rw [show ([['c', 'c'], ['c', 'c']].map
    (fun w => count_substr w ['c', 'c'])).sum = 2 from rfl]
  rw [if_pos (show (2 : ℚ) ≠ 0 by norm_num)]
  norm_num

theorem sorted_key_ten :
    (sortKeys ((count_frequencies [['c', 'c']] af_alphabet).map Prod.fst)).getD
      (2 * 4 + 2) [] = ['c', 'c'] := by
  rw [count_frequencies_map_fst]
  rfl

theorem sorted_key_ten' :
    (sortKeys ((count_frequencies [['c', 'c'], ['c', 'c']]
      af_alphabet).map Prod.fst)).getD (2 * 4 + 2) [] = ['c', 'c'] := by
  rw [count_frequencies_map_fst]
  rfl

theorem score_const55_pos :
    0 < (scoreWindows stdZ bpsStd ⟨2, 1, 1, 2⟩ [(5 : ℚ), 5] [5, 5, 5, 5]).score := by
  obtain ⟨M1, M2, hM1, hM2, hsc⟩ :=
    scoreWindows_structure stdZ bpsStd ⟨2, 1, 1, 2⟩ [(5 : ℚ), 5] [5, 5, 5, 5]
  rw [wT_lead55, wT_lag55, nf_const55] at hM1 hM2
  obtain ⟨N1, hok1, hN1len, hN1rows, hcells1⟩ := build_bitmap_spec
    (show (count_frequencies [['c', 'c']] af_alphabet).length = 4 * 4 from
      count_frequencies_af_length _) (by norm_num) 2
  obtain ⟨N2, hok2, hN2len, hN2rows, hcells2⟩ := build_bitmap_spec
    (show (count_frequencies [['c', 'c'], ['c', 'c']] af_alphabet).length = 4 * 4
      from count_frequencies_af_length _) (by norm_num) 2
  rw [hok1] at hM1
  rw [hok2] at hM2
  cases Except.ok.inj hM1
  cases Except.ok.inj hM2
  have hc1 : (M1.getD 2 []).getD 2 0 = 1 / 2 := by
    rw [hcells1 2 2 (by norm_num) (by norm_num), sorted_key_ten, cell_lead55]
  have hc2 : (M2.getD 2 []).getD 2 0 = 1 := by
    rw [hcells2 2 2 (by norm_num) (by norm_num), sorted_key_ten', cell_lag55]
  have hrow1 : (M1.getD 2 []).length = 4 := by
    have hmem : M1.getD 2 [] ∈ M1 := by
      rw [List.getD_eq_getElem?_getD, List.getElem?_eq_getElem (by omega)]
      exact List.getElem_mem _
    exact hN1rows _ hmem
  have hrow2 : (M2.getD 2 []).length = 4 := by
    have hmem : M2.getD 2 [] ∈ M2 := by
      rw [List.getD_eq_getElem?_getD, List.getElem?_eq_getElem (by omega)]
      exact List.getElem_mem _
    exact hN2rows _ hmem
  have hdist := cell_sq_le_dist 2 M1 M2 (by omega) (by omega) 2
    (by omega) (by omega)
  rw [hc1, hc2] at hdist
  have hdistq : (1 : ℚ) / 4 ≤ dist M1 M2 := by
    calc (1 : ℚ) / 4 = (1 / 2 - 1) ^ 2 := by norm_num
      _ ≤ dist M1 M2 := hdist
  have hsh : shape0 M1 = 4 ∧ shape1 M1 = 4 := by
    have := bitmap_shape (count_frequencies_af_length [['c', 'c']]) hok1
    exact ⟨this.2.2.1, this.2.2.2⟩
  rw [hsc]
  show 0 < dist M1 M2 / ((shape0 M1 * shape1 M1 : Nat) : ℚ)
  rw [hsh.1, hsh.2]
  apply div_pos
  · linarith
  · norm_num

theorem scoreWindows_self (std : List ℚ → ℚ) (bps : List ℚ) (cfg : Config)
    (w : List ℚ) : (scoreWindows std bps cfg w w).score = 0 := by
  obtain ⟨M1, M2, hM1, hM2, heq⟩ := scoreWindows_structure std bps cfg w w
  rw [hM1] at hM2
  cases Except.ok.inj hM2
  rw [heq]
  show dist M1 M1 / ((shape0 M1 * shape1 M1 : Nat) : ℚ) = 0
  rw [dist_self, zero_div]

/-! ### Remaining claim theorems -/

/-- C4 (amended): for a constant-valued input series, every emitted Analysis
has score exactly 0 provided the lead and lag windows have equal capacity
(`lead_window_factor = lag_window_factor`): only then do the two full windows
hold identical data, making the frequency tables and bitmaps equal.  The
original claim, which promises score 0 for every configuration, is refuted
by `C4_counterexample`: with unequal capacities the two tables count
different numbers of windows, the common normalization makes the bitmaps
differ, and the score is strictly positive. -/
theorem C4_constant_series_equal_windows_score_zero (std : List ℚ → ℚ)
    (bps : List ℚ) (cfg : Config) (c : ℚ) (n : Nat)
    (heq : cfg.lead_maxlen = cfg.lag_maxlen) :
    ∀ a ∈ (detect std bps cfg (List.replicate n c)).2, a.score = 0 := by
  intro a ha
  have ha' : a ∈ (detectFrom std bps cfg
      ⟨List.replicate 0 c, List.replicate 0 c⟩ (List.replicate n c)).2 := ha
  have hval := detectFrom_const std bps cfg c n 0 0 a ha'
  rw [hval, heq]
  exact scoreWindows_self std bps cfg _

/-- Witness for the amended C4: with all four factors 1 the two windows have
equal capacity; feeding three constant datapoints emits two Analyses, and
each has score 0. -/
theorem C4_witness :
    Config.lead_maxlen ⟨1, 1, 1, 1⟩ = Config.lag_maxlen ⟨1, 1, 1, 1⟩ ∧
    (detect stdZ bpsStd ⟨1, 1, 1, 1⟩ (List.replicate 3 (5 : ℚ))).2.length = 2 ∧
    ∀ a ∈ (detect stdZ bpsStd ⟨1, 1, 1, 1⟩ (List.replicate 3 (5 : ℚ))).2,
      a.score = 0 :=
  ⟨rfl, rfl, C4_constant_series_equal_windows_score_zero stdZ bpsStd
    ⟨1, 1, 1, 1⟩ 5 3 rfl⟩

/-- Counterexample to C4 as stated: a fresh detector with word_size 2,
window_factor 1, lead factor 1 and lag factor 2, fed the constant series
5.0 of length universe_size + 50, emits an Analysis of nonzero score (the
lead table counts one window, the lag table two, and the shared
normalization factor then scales the two bitmaps differently). -/
theorem C4_counterexample :
    ∃ a ∈ (detect stdZ bpsStd ⟨2, 1, 1, 2⟩
        (List.replicate (Config.universe_size ⟨2, 1, 1, 2⟩ + 50) (5 : ℚ))).2,
      a.score ≠ 0 := by
  have hlen : (detect stdZ bpsStd ⟨2, 1, 1, 2⟩
      (List.replicate (Config.universe_size ⟨2, 1, 1, 2⟩ + 50) (5 : ℚ))).2.length
      = 51 := by rfl
  have hne : (detect stdZ bpsStd ⟨2, 1, 1, 2⟩
      (List.replicate (Config.universe_size ⟨2, 1, 1, 2⟩ + 50) (5 : ℚ))).2
      ≠ [] := by
    intro hnil
    rw [hnil] at hlen
    cases hlen
  obtain ⟨a, ha⟩ := List.exists_mem_of_ne_nil _ hne
  have ha' : a ∈ (detectFrom stdZ bpsStd ⟨2, 1, 1, 2⟩
      ⟨List.replicate 0 (5 : ℚ), List.replicate 0 (5 : ℚ)⟩
      (List.replicate (Config.universe_size ⟨2, 1, 1, 2⟩ + 50) (5 : ℚ))).2 := ha
  have hval := detectFrom_const stdZ bpsStd ⟨2, 1, 1, 2⟩ 5
    (Config.universe_size ⟨2, 1, 1, 2⟩ + 50) 0 0 a ha'
  refine ⟨a, ha, ?_⟩
  rw [hval,
    show List.replicate (Config.lead_maxlen ⟨2, 1, 1, 2⟩) (5 : ℚ) = [5, 5]
      from rfl,
    show List.replicate (Config.lag_maxlen ⟨2, 1, 1, 2⟩) (5 : ℚ) = [5, 5, 5, 5]
      from rfl]
  exact ne_of_gt score_const55_pos

/-- C5: every Analysis emitted by `detect` carries as score the sum of the
squared elementwise differences of its two bitmaps (the `_dist` value)
divided by the total cell count of the lead bitmap's shape; both bitmaps
are 4×4, the score is non-negative, it is 0 when the two bitmaps are
identical, and the distance is symmetric under swapping the bitmaps. -/
theorem C5_score_is_normalized_squared_distance (std : List ℚ → ℚ)
    (bps : List ℚ) (cfg : Config) (xs : List ℚ) :
    ∀ a ∈ (detect std bps cfg xs).2,
      a.score = dist a.bitmp1 a.bitmp2
          / ((shape0 a.bitmp1 * shape1 a.bitmp1 : Nat) : ℚ) ∧
      shape0 a.bitmp1 = 4 ∧ shape1 a.bitmp1 = 4 ∧
      shape0 a.bitmp2 = 4 ∧ shape1 a.bitmp2 = 4 ∧
      0 ≤ a.score ∧
      (a.bitmp1 = a.bitmp2 → a.score = 0) ∧
      dist a.bitmp1 a.bitmp2 = dist a.bitmp2 a.bitmp1 := by
  intro a ha
  obtain ⟨lead, lag, _, _, rfl⟩ := detectFrom_mem std bps cfg xs initState a ha
  obtain ⟨M1, M2, hM1, hM2, heq⟩ := scoreWindows_structure std bps cfg lead lag
  have hsh1 := bitmap_shape (windowTable_length std bps cfg lead) hM1
  have hsh2 := bitmap_shape (windowTable_length std bps cfg lag) hM2
  rw [heq]
  refine ⟨rfl, hsh1.2.2.1, hsh1.2.2.2, hsh2.2.2.1, hsh2.2.2.2, ?_, ?_,
    dist_comm M1 M2⟩
  · show 0 ≤ dist M1 M2 / ((shape0 M1 * shape1 M1 : Nat) : ℚ)
    exact div_nonneg (dist_nonneg M1 M2) (by positivity)
  · intro h12
    have h' : M1 = M2 := h12
    show dist M1 M2 / ((shape0 M1 * shape1 M1 : Nat) : ℚ) = 0
    rw [h', dist_self, zero_div]

/-- Witness for C5: the single Analysis emitted for the two-point input
`[5, 5]` under the all-ones configuration satisfies the score formula. -/
theorem C5_witness :
    scoreWindows stdZ bpsStd ⟨1, 1, 1, 1⟩ [(5 : ℚ)] [(5 : ℚ)]
        ∈ (detect stdZ bpsStd ⟨1, 1, 1, 1⟩ [(5 : ℚ), 5]).2 ∧
    (scoreWindows stdZ bpsStd ⟨1, 1, 1, 1⟩ [(5 : ℚ)] [(5 : ℚ)]).score
        = dist (scoreWindows stdZ bpsStd ⟨1, 1, 1, 1⟩ [(5 : ℚ)]
              [(5 : ℚ)]).bitmp1
            (scoreWindows stdZ bpsStd ⟨1, 1, 1, 1⟩ [(5 : ℚ)] [(5 : ℚ)]).bitmp2
          / ((shape0 (scoreWindows stdZ bpsStd ⟨1, 1, 1, 1⟩ [(5 : ℚ)]
                [(5 : ℚ)]).bitmp1
              * shape1 (scoreWindows stdZ bpsStd ⟨1, 1, 1, 1⟩ [(5 : ℚ)]
                [(5 : ℚ)]).bitmp1 : Nat) : ℚ) := by
  have hm : scoreWindows stdZ bpsStd ⟨1, 1, 1, 1⟩ [(5 : ℚ)] [(5 : ℚ)]
      ∈ (detect stdZ bpsStd ⟨1, 1, 1, 1⟩ [(5 : ℚ), 5]).2 := by
    rw [show (detect stdZ bpsStd ⟨1, 1, 1, 1⟩ [(5 : ℚ), 5]).2
        = [scoreWindows stdZ bpsStd ⟨1, 1, 1, 1⟩ [(5 : ℚ)] [(5 : ℚ)]] from rfl]
    exact List.mem_singleton.mpr rfl
  exact ⟨hm, (C5_score_is_normalized_squared_distance stdZ bpsStd ⟨1, 1, 1, 1⟩
    [(5 : ℚ), 5] _ hm).1⟩

/-- C6 (amended): for a one-dimensional segment of length `k·word_size`
with `k ≥ 1` and a breakpoint vector short enough for the 52-letter
alphabet, the discretizer returns a word of length exactly `word_size`
every symbol of which lies among the first `alphbt_size` letters
(`alphbt_size = bps.length + 1`, counting the +infinity sentinel).  The
original claim, which includes `k = 0`, is refuted by
`C6_counterexample`: the empty segment has length `0·word_size` but
raises IndexError (each sub-segment is empty, its numpy mean is NaN, and
no breakpoint exceeds NaN). -/
theorem C6_word_length_and_alphabet_for_nonempty_segments (std : List ℚ → ℚ)
    (bps : List ℚ) (data : List ℚ) (ws k : Nat)
    (hlen : data.length = k * ws) (hk : 1 ≤ k) (hws : 0 < ws)
    (hbl : bps.length + 1 ≤ 52) :
    ∃ w, sax std bps data ws = .ok w ∧ w.length = ws ∧
      ∀ ch ∈ w, ch ∈ ascii_letters.take (bps.length + 1) :=
  sax_ok std bps hlen hk hws hbl

/-- Witness for the amended C6: the four-point segment `[1, 2, 3, 4]` with
word_size 2 (so `k = 2`) discretizes to a two-letter word over the first
four letters. -/
theorem C6_witness :
    [(1 : ℚ), 2, 3, 4].length = 2 * 2 ∧
    ∃ w, sax stdZ bpsStd [(1 : ℚ), 2, 3, 4] 2 = .ok w ∧ w.length = 2 ∧
      ∀ ch ∈ w, ch ∈ ascii_letters.take (bpsStd.length + 1) :=
  ⟨rfl, C6_word_length_and_alphabet_for_nonempty_segments stdZ bpsStd
    [(1 : ℚ), 2, 3, 4] 2 2 rfl (by decide) (by decide) (by decide)⟩

/-- Counterexample to C6 as stated: the empty segment has length
`0 · word_size`, yet the discretizer fails with IndexError instead of
returning a word of length `word_size`. -/
theorem C6_counterexample :
    ([] : List ℚ).length = 0 * 2 ∧
    sax stdZ bpsStd [] 2 = .error .indexError :=
  ⟨rfl, rfl⟩

/-- C9 (implicit): in every Analysis emitted by `detect`, every cell of both
bitmaps lies in `[0, 1]`, and the score itself lies in `[0, 1]`. -/
theorem C9_cells_and_score_in_unit_interval (std : List ℚ → ℚ) (bps : List ℚ)
    (cfg : Config) (xs : List ℚ) :
    ∀ a ∈ (detect std bps cfg xs).2,
      (∀ r ∈ a.bitmp1, ∀ v ∈ r, 0 ≤ v ∧ v ≤ 1) ∧
      (∀ r ∈ a.bitmp2, ∀ v ∈ r, 0 ≤ v ∧ v ≤ 1) ∧
      0 ≤ a.score ∧ a.score ≤ 1 := by
  intro a ha
  obtain ⟨lead, lag, _, _, rfl⟩ := detectFrom_mem std bps cfg xs initState a ha
  exact scoreWindows_bounds std bps cfg lead lag

/-- Witness for C9: the single Analysis emitted for the input `[3, 4]`
under the all-ones configuration has score in `[0, 1]`. -/
theorem C9_witness :
    scoreWindows stdZ bpsStd ⟨1, 1, 1, 1⟩ [(4 : ℚ)] [(3 : ℚ)]
        ∈ (detect stdZ bpsStd ⟨1, 1, 1, 1⟩ [(3 : ℚ), 4]).2 ∧
    0 ≤ (scoreWindows stdZ bpsStd ⟨1, 1, 1, 1⟩ [(4 : ℚ)] [(3 : ℚ)]).score ∧
    (scoreWindows stdZ bpsStd ⟨1, 1, 1, 1⟩ [(4 : ℚ)] [(3 : ℚ)]).score ≤ 1 := by
  have hm : scoreWindows stdZ bpsStd ⟨1, 1, 1, 1⟩ [(4 : ℚ)] [(3 : ℚ)]
      ∈ (detect stdZ bpsStd ⟨1, 1, 1, 1⟩ [(3 : ℚ), 4]).2 := by
    rw [show (detect stdZ bpsStd ⟨1, 1, 1, 1⟩ [(3 : ℚ), 4]).2
        = [scoreWindows stdZ bpsStd ⟨1, 1, 1, 1⟩ [(4 : ℚ)] [(3 : ℚ)]] from rfl]
    exact List.mem_singleton.mpr rfl
  exact ⟨hm, (C9_cells_and_score_in_unit_interval stdZ bpsStd ⟨1, 1, 1, 1⟩
    [(3 : ℚ), 4] _ hm).2.2⟩

end AF
